import Mathlib

/-!
Verification of the TextFlow workflow execution engine
(`src/components/NodeComponent.tsx`, `src/types.ts`, and the generation
service wrapper).  The TypeScript source is shallowly embedded: node and
connection records become Lean structures, the scheduler's mutation of the
local `currentNodes` array becomes explicit state passing over
`List NodeData`, and the external generation capability becomes an oracle
parameter returning `Except` (failure carries the provider's message).
-/

namespace TextFlow

/-- The `NodeType` enum from `src/types.ts`. -/
inductive NodeType where
  | INPUT
  | AI_GENERATOR
  | AI_OPTIMIZER
  | AI_FACT_CHECK
  | AI_CODER
  | OUTPUT_PREVIEW
  | IMAGE_NODE
  | AI_BRAINSTORM
deriving DecidableEq

/-- The `NodeStatus` enum from `src/types.ts`. -/
inductive NodeStatus where
  | IDLE
  | RUNNING
  | COMPLETED
  | ERROR
deriving DecidableEq

/-- The `NodeData` record from `src/types.ts`.  Optional TypeScript fields become
`Option`; `imageUrls` is an optional array of locators.  Defaults are for
conveniently writing concrete sample nodes and carry no semantics. -/
structure NodeData where
  id : String := ""
  type : NodeType := NodeType.INPUT
  x : Int := 0
  y : Int := 0
  title : String := ""
  content : String := ""
  userPrompt : Option String := none
  systemInstruction : Option String := none
  model : Option String := none
  customTemplate : Option String := none
  imageUrls : Option (List String) := none
  status : NodeStatus := NodeStatus.IDLE
  errorMessage : Option String := none
deriving DecidableEq

/-- The `Connection` record from `src/types.ts`. -/
structure Connection where
  id : String := ""
  sourceId : String
  targetId : String
deriving DecidableEq

/-- JavaScript truthiness of an optional string (`undefined` and `""` are
falsy), used by the source in `node.userPrompt || ''`,
`node.model || 'gemini-2.5-flash'`, `node.customTemplate && ...`. -/
def jsTruthy (o : Option String) : Bool :=
  match o with
  | none => false
  | some s => !s.isEmpty

/-- The inner loop of `getDescendantNodeIds`: for each outgoing connection
of the popped node, add the target to the descendant set and push it on
the traversal stack unless already seen. -/
def pushNew : List Connection → List String → Finset String → List String × Finset String
  | [], stack, descendants => (stack, descendants)
  | c :: rest, stack, descendants =>
    if c.targetId ∈ descendants then pushNew rest stack descendants
    else pushNew rest (c.targetId :: stack) (insert c.targetId descendants)

/-- The `while (stack.length > 0)` loop of `getDescendantNodeIds`,
with explicit fuel (the source loop terminates because every push adds a
previously unseen connection target; `conns.length + 1` iterations always
suffice, proved below). -/
def descLoop (conns : List Connection) : Nat → List String → Finset String → Finset String
  | 0, _, descendants => descendants
  | _ + 1, [], descendants => descendants
  | fuel + 1, current :: stack, descendants =>
    let p := pushNew (conns.filter (fun c => c.sourceId == current)) stack descendants
    descLoop conns fuel p.1 p.2

/-- The `getDescendantNodeIds` helper (`NodeComponent.tsx` lines 638-654): iterative
stack traversal collecting every node reachable from `startNodeId` by one
or more connection steps. -/
def getDescendantNodeIds (conns : List Connection) (startNodeId : String) : Finset String :=
  descLoop conns (conns.length + 1) [startNodeId] ∅

/-- Declarative reachability through one or more connections, used to state
what `getDescendantNodeIds` computes. -/
inductive Reach1 (conns : List Connection) (a : String) : String → Prop where
  | single {c : Connection} : c ∈ conns → c.sourceId = a → Reach1 conns a c.targetId
  | tail {b : String} {c : Connection} :
      Reach1 conns a b → c ∈ conns → c.sourceId = b → Reach1 conns a c.targetId

/-- The finite set of all connection targets, used to bound the worklist. -/
def targetsOf (conns : List Connection) : Finset String :=
  (conns.map (fun c => c.targetId)).toFinset

namespace PushNew

theorem desc_mono (outs : List Connection) (stack : List String) (d : Finset String) :
    d ⊆ (pushNew outs stack d).2 := by
  induction outs generalizing stack d with
  | nil => simp [pushNew]
  | cons c rest ih =>
    by_cases h : c.targetId ∈ d
    · simpa [pushNew, h] using ih stack d
    · simp only [pushNew, h, if_neg, if_false]
      exact fun x hx => ih _ _ (Finset.mem_insert_of_mem hx)

theorem targets_mem (outs : List Connection) (stack : List String) (d : Finset String) :
    ∀ c ∈ outs, c.targetId ∈ (pushNew outs stack d).2 := by
  induction outs generalizing stack d with
  | nil => simp
  | cons c rest ih =>
    intro c' hc'
    by_cases h : c.targetId ∈ d
    · rcases List.mem_cons.mp hc' with rfl | hmem
      · simpa [pushNew, h] using desc_mono rest stack d h
      · simpa [pushNew, h] using ih stack d c' hmem
    · rcases List.mem_cons.mp hc' with rfl | hmem
      · simpa [pushNew, h] using
          desc_mono rest (c'.targetId :: stack) (insert c'.targetId d) (Finset.mem_insert_self _ _)
      · simpa [pushNew, h] using ih _ _ c' hmem

theorem stack_mono (outs : List Connection) (stack : List String) (d : Finset String) :
    ∀ x ∈ stack, x ∈ (pushNew outs stack d).1 := by
  induction outs generalizing stack d with
  | nil => simp [pushNew]
  | cons c rest ih =>
    intro x hx
    by_cases h : c.targetId ∈ d
    · simpa [pushNew, h] using ih stack d x hx
    · simpa [pushNew, h] using ih _ _ x (List.mem_cons_of_mem _ hx)

theorem stack_src (outs : List Connection) (stack : List String) (d : Finset String) :
    ∀ x ∈ (pushNew outs stack d).1, x ∈ stack ∨ ∃ c ∈ outs, c.targetId = x := by
  induction outs generalizing stack d with
  | nil => simp [pushNew]
  | cons c rest ih =>
    intro x hx
    by_cases h : c.targetId ∈ d
    · rcases ih stack d x (by simpa [pushNew, h] using hx) with h1 | ⟨c', hc', rfl⟩
      · exact Or.inl h1
      · exact Or.inr ⟨c', List.mem_cons_of_mem _ hc', rfl⟩
    · rcases ih _ _ x (by simpa [pushNew, h] using hx) with h1 | ⟨c', hc', rfl⟩
      · rcases List.mem_cons.mp h1 with rfl | h2
        · exact Or.inr ⟨c, List.mem_cons_self _ _, rfl⟩
        · exact Or.inl h2
      · exact Or.inr ⟨c', List.mem_cons_of_mem _ hc', rfl⟩

theorem desc_src (outs : List Connection) (stack : List String) (d : Finset String) :
    ∀ x ∈ (pushNew outs stack d).2, x ∈ d ∨ ∃ c ∈ outs, c.targetId = x := by
  induction outs generalizing stack d with
  | nil => simp [pushNew]
  | cons c rest ih =>
    intro x hx
    by_cases h : c.targetId ∈ d
    · rcases ih stack d x (by simpa [pushNew, h] using hx) with h1 | ⟨c', hc', rfl⟩
      · exact Or.inl h1
      · exact Or.inr ⟨c', List.mem_cons_of_mem _ hc', rfl⟩
    · rcases ih _ _ x (by simpa [pushNew, h] using hx) with h1 | ⟨c', hc', rfl⟩
      · rcases Finset.mem_insert.mp h1 with rfl | h2
        · exact Or.inr ⟨c, List.mem_cons_self _ _, rfl⟩
        · exact Or.inl h2
      · exact Or.inr ⟨c', List.mem_cons_of_mem _ hc', rfl⟩

theorem new_in_stack (outs : List Connection) (stack : List String) (d : Finset String) :
    ∀ x ∈ (pushNew outs stack d).2, x ∉ d → x ∈ (pushNew outs stack d).1 := by
  induction outs generalizing stack d with
  | nil =>
    intro x hx hxd
    exact absurd hx hxd
  | cons c rest ih =>
    intro x hx hxd
    by_cases h : c.targetId ∈ d
    · simp only [pushNew, h, if_pos] at hx ⊢
      exact ih stack d x hx hxd
    · simp only [pushNew, h, if_neg, if_false] at hx ⊢
      by_cases hxc : x ∈ insert c.targetId d
      · rcases Finset.mem_insert.mp hxc with h2 | h2
        · exact h2 ▸ stack_mono rest _ _ c.targetId (List.mem_cons_self _ _)
        · exact absurd h2 hxd
      · exact ih _ _ x hx hxc

theorem measure_le (T : Finset String) (outs : List Connection) (stack : List String)
    (d : Finset String) (hT : ∀ c ∈ outs, c.targetId ∈ T) :
    (pushNew outs stack d).1.length + (T \ (pushNew outs stack d).2).card ≤
      stack.length + (T \ d).card := by
  induction outs generalizing stack d with
  | nil => simp [pushNew]
  | cons c rest ih =>
    by_cases h : c.targetId ∈ d
    · simpa [pushNew, h] using ih stack d (fun c' hc' => hT c' (List.mem_cons_of_mem _ hc'))
    · simp only [pushNew, h, if_neg, if_false]
      have hstep := ih (c.targetId :: stack) (insert c.targetId d)
        (fun c' hc' => hT c' (List.mem_cons_of_mem _ hc'))
      simp only [List.length_cons] at hstep
      have hcard : (T \ insert c.targetId d).card + 1 = (T \ d).card := by
        have hmem : c.targetId ∈ T \ d :=
          Finset.mem_sdiff.mpr ⟨hT c (List.mem_cons_self _ _), h⟩
        have : T \ insert c.targetId d = (T \ d).erase c.targetId := by
          ext y
          simp only [Finset.mem_sdiff, Finset.mem_insert, Finset.mem_erase]
          tauto
        rw [this, Finset.card_erase_of_mem hmem]
        exact Nat.succ_pred_eq_of_pos (Finset.card_pos.mpr ⟨c.targetId, hmem⟩)
      omega

end PushNew

section DescLoop

variable (conns : List Connection) (start : String)

/-- Every id collected by the traversal loop is reachable from `start`
(given the stated invariants on the stack and the accumulated set). -/
theorem descLoop_sound (fuel : Nat) :
    ∀ stack d, (∀ v ∈ d, Reach1 conns start v) →
      (∀ s ∈ stack, s = start ∨ Reach1 conns start s) →
      ∀ v ∈ descLoop conns fuel stack d, Reach1 conns start v := by
  induction fuel with
  | zero => intro stack d hd _ v hv; exact hd v hv
  | succ fuel ih =>
    intro stack d hd hstack v hv
    match stack with
    | [] => exact hd v hv
    | current :: rest =>
      simp only [descLoop] at hv
      set outs := conns.filter (fun c => c.sourceId == current) with houts
      have hreach : ∀ c ∈ outs, Reach1 conns start c.targetId := by
        intro c hc
        have hcm : c ∈ conns := List.mem_of_mem_filter hc
        have hcs : c.sourceId = current := by
          have := List.of_mem_filter hc
          simpa using this
        rcases hstack current (List.mem_cons_self _ _) with hcur | hcur
        · exact Reach1.single hcm (hcs.trans hcur)
        · exact Reach1.tail hcur hcm hcs
      refine ih _ _ ?_ ?_ v hv
      · intro x hx
        rcases PushNew.desc_src outs rest d x hx with hxd | ⟨c, hc, rfl⟩
        · exact hd x hxd
        · exact hreach c hc
      · intro s hs
        rcases PushNew.stack_src outs rest d s hs with hsr | ⟨c, hc, rfl⟩
        · exact hstack s (List.mem_cons_of_mem _ hsr)
        · exact Or.inr (hreach c hc)

/-- Predicate `Closed stack d` states that every already-processed id
(`start` or collected, and no longer on the stack) has all of its
connection targets collected. -/
def Closed (stack : List String) (d : Finset String) : Prop :=
  ∀ v, (v = start ∨ v ∈ d) → v ∉ stack →
    ∀ c ∈ conns, c.sourceId = v → c.targetId ∈ d

/-- With enough fuel the traversal drains its stack and the result is
closed under connection steps. -/
theorem descLoop_complete (fuel : Nat) :
    ∀ stack d,
      stack.length + (targetsOf conns \ d).card ≤ fuel →
      Closed conns start stack d →
      d ⊆ descLoop conns fuel stack d ∧
        Closed conns start [] (descLoop conns fuel stack d) := by
  induction fuel with
  | zero =>
    intro stack d hfuel hclosed
    have hstack : stack = [] := by
      cases stack with
      | nil => rfl
      | cons a l => simp [List.length_cons] at hfuel
    subst hstack
    exact ⟨fun x hx => hx, hclosed⟩
  | succ fuel ih =>
    intro stack d hfuel hclosed
    match stack with
    | [] => exact ⟨fun x hx => hx, hclosed⟩
    | current :: rest =>
      simp only [descLoop]
      set outs := conns.filter (fun c => c.sourceId == current) with houts
      have houtsT : ∀ c ∈ outs, c.targetId ∈ targetsOf conns := by
        intro c hc
        exact List.mem_toFinset.mpr (List.mem_map.mpr ⟨c, List.mem_of_mem_filter hc, rfl⟩)
      have hmeas := PushNew.measure_le (targetsOf conns) outs rest d houtsT
      have hfuel' : (pushNew outs rest d).1.length +
          (targetsOf conns \ (pushNew outs rest d).2).card ≤ fuel := by
        simp only [List.length_cons] at hfuel
        omega
      have hclosed' : Closed conns start (pushNew outs rest d).1 (pushNew outs rest d).2 := by
        intro v hv hvstack c hc hcs
        by_cases hvd : v = start ∨ v ∈ d
        · by_cases hvc : v = current
          · subst hvc
            exact PushNew.targets_mem outs rest d c
              (List.mem_filter.mpr ⟨hc, by simpa using hcs⟩)
          · have hvrest : v ∉ rest := fun hr => hvstack (PushNew.stack_mono outs rest d v hr)
            have hvold : v ∉ current :: rest := by
              intro hvm
              rcases List.mem_cons.mp hvm with h1 | h1
              · exact hvc h1
              · exact hvrest h1
            exact PushNew.desc_mono outs rest d (hclosed v hvd hvold c hc hcs)
        · have hvnew : v ∈ (pushNew outs rest d).2 := by
            rcases hv with h1 | h1
            · exact absurd (Or.inl h1) hvd
            · exact h1
          have hvnotd : v ∉ d := fun hd' => hvd (Or.inr hd')
          exact absurd (PushNew.new_in_stack outs rest d v hvnew hvnotd) hvstack
      have hrec := ih _ _ hfuel' hclosed'
      exact ⟨fun x hx => hrec.1 (PushNew.desc_mono outs rest d hx), hrec.2⟩

/-- Anything reachable from `start` lies in any step-closed set. -/
theorem reach_mem_of_closed (R : Finset String) (hclosed : Closed conns start [] R) :
    ∀ v, Reach1 conns start v → v ∈ R := by
  intro v hreach
  induction hreach with
  | single hc hcs => exact hclosed start (Or.inl rfl) (List.not_mem_nil _) _ hc hcs
  | tail hr hc hcs ih => exact hclosed _ (Or.inr ih) (List.not_mem_nil _) _ hc hcs

/-- Correctness of the retry-cascade descendant computation: the computed
set is exactly the set of ids reachable from `startNodeId` through one or
more connections. -/
theorem mem_getDescendantNodeIds (v : String) :
    v ∈ getDescendantNodeIds conns start ↔ Reach1 conns start v := by
  constructor
  · intro hv
    exact descLoop_sound conns start (conns.length + 1) [start] ∅
      (by simp) (by simp) v hv
  · intro hreach
    have hfuel : ([start] : List String).length +
        (targetsOf conns \ (∅ : Finset String)).card ≤ conns.length + 1 := by
      have hcard : (targetsOf conns).card ≤ conns.length := by
        calc (targetsOf conns).card ≤ (conns.map (fun c => c.targetId)).length :=
              List.toFinset_card_le _
          _ = conns.length := List.length_map _ _
      simp only [List.length_singleton, Finset.sdiff_empty]
      omega
    have hclosed : Closed conns start [start] ∅ := by
      intro v' hv' hvstack
      rcases hv' with h1 | h1
      · exact absurd (h1 ▸ List.mem_cons_self start []) hvstack
      · exact absurd h1 (Finset.not_mem_empty v')
    have hmain := descLoop_complete conns start (conns.length + 1) [start] ∅
      (by simpa using hfuel) hclosed
    exact reach_mem_of_closed conns start _ hmain.2 v hreach

end DescLoop

/-- The external generation capability (`generateText` in the service
wrapper), modeled as an oracle taking (modelName, prompt,
systemInstruction, globalContext) and returning generated text or a
provider error message. -/
def GenOracle : Type := String → String → Option String → Option String → Except String String

/-- The `updateLocalAndState` helper restricted to the local working copy: replace
every node whose id matches by the updated record (the published workspace
copy mirrors the same map and is not modeled separately). -/
def updateNode (ns : List NodeData) (id : String) (f : NodeData → NodeData) : List NodeData :=
  ns.map (fun n => if n.id == id then f n else n)

/-- Lookup `currentNodes.find(n => n.id === id)`. -/
def findNode (ns : List NodeData) (id : String) : Option NodeData :=
  ns.find? (fun n => n.id == id)

/-- Query `connections.filter(c => c.targetId === nodeId)` — the incoming edges
of a node, in insertion order of the connections array. -/
def incomingOf (conns : List Connection) (nodeId : String) : List Connection :=
  conns.filter (fun c => c.targetId == nodeId)

/-- The input-collection loop of `processWorkflowQueue` (lines 704-717):
walk the incoming edges in order; a `IMAGE_NODE` source contributes its
`imageUrls` to the image list, any other found source contributes its
`content` to the text list.  The source's pushes in edge order are modeled
by building the lists front-to-back. -/
def collectInputs (ns : List NodeData) : List Connection → List String × List String
  | [] => ([], [])
  | e :: rest =>
    let p := collectInputs ns rest
    match findNode ns e.sourceId with
    | some source =>
      if source.type == NodeType.IMAGE_NODE then
        (p.1, source.imageUrls.getD [] ++ p.2)
      else
        (source.content :: p.1, p.2)
    | none => p

/-- The `AI_CODER` structured request of lines 731-741 (template literal
reproduced verbatim). -/
def coderPrompt (inputTextCombined template : String) (imageInputs : List String) : String :=
  "\nCONTENT TO INSERT:\n" ++ inputTextCombined ++
  "\n\nHTML TEMPLATE:\n" ++ template ++
  "\n\nINSTRUCTIONS:\nInsert the content into the HTML template. Do not change the layout structure, only add the text.\n" ++
  (if imageInputs.length > 0 then
    "Also, insert these images where appropriate in the HTML: " ++ String.intercalate ", " imageInputs
   else "") ++
  "\n                            "

/-- Prompt selection of lines 726-744: Brainstorm uses a fixed topic
request; a Coder with a (truthy) template uses the structured request;
otherwise the concatenated upstream text, with an available-images
annotation appended when any image inputs were collected. -/
def buildPrompt (node : NodeData) (inputTextCombined : String) (imageInputs : List String) : String :=
  if node.type == NodeType.AI_BRAINSTORM then
    "Generate a list of relevant topics based on the global context provided."
  else if node.type == NodeType.AI_CODER && jsTruthy node.customTemplate then
    coderPrompt inputTextCombined (node.customTemplate.getD "") imageInputs
  else if imageInputs.length > 0 then
    inputTextCombined ++ "\n\nAvailable Image URLs: " ++ String.intercalate ", " imageInputs
  else
    inputTextCombined

/-- The full payload passed to the generation capability for `node`, as
assembled from the state `ns` (the source reads `currentNodes` after the
RUNNING transition; callers pass that state). -/
def assembledPrompt (conns : List Connection) (ns : List NodeData) (node : NodeData) : String :=
  let inputs := collectInputs ns (incomingOf conns node.id)
  buildPrompt node (String.intercalate "\n\n" inputs.1) inputs.2

/-- Model selection `node.model || 'gemini-2.5-flash'`. -/
def modelOrDefault (m : Option String) : String :=
  if jsTruthy m then m.getD "" else "gemini-2.5-flash"

/-- The per-node body of the dispatch loop (lines 700-756): transition to
RUNNING (clearing `errorMessage`), assemble inputs from the current local
state, then either pass through (`OUTPUT_PREVIEW`) or call the generation
oracle, applying the COMPLETED/ERROR result.  On failure the message
defaults to "Unknown error" when empty (`e.message || "Unknown error"`). -/
def runNode (gen : GenOracle) (conns : List Connection) (globalContext : String)
    (ns : List NodeData) (node : NodeData) : List NodeData :=
  let ns1 := updateNode ns node.id
    (fun n => { n with status := NodeStatus.RUNNING, errorMessage := none })
  if node.type == NodeType.OUTPUT_PREVIEW then
    updateNode ns1 node.id (fun n =>
      { n with status := NodeStatus.COMPLETED,
               content := String.intercalate "\n\n" (collectInputs ns1 (incomingOf conns node.id)).1 })
  else
    match gen (modelOrDefault node.model) (assembledPrompt conns ns1 node)
        node.systemInstruction (some globalContext) with
    | Except.ok result =>
      updateNode ns1 node.id (fun n =>
        { n with status := NodeStatus.COMPLETED, content := result })
    | Except.error e =>
      updateNode ns1 node.id (fun n =>
        { n with status := NodeStatus.ERROR,
                 errorMessage := some (if e == "" then "Unknown error" else e) })

/-- The readiness filter of lines 685-698: a node runs in this round iff it
is IDLE and (it is a Brainstorm node, or (it has incoming edges or is a
source-like kind) and every incoming edge's source exists and is
COMPLETED). -/
def nodesToRun (conns : List Connection) (ns : List NodeData) : List NodeData :=
  ns.filter (fun node =>
    if node.status != NodeStatus.IDLE then false
    else if node.type == NodeType.AI_BRAINSTORM then true
    else
      let incomingEdges := incomingOf conns node.id
      if incomingEdges.length == 0 && node.type != NodeType.INPUT
          && node.type != NodeType.IMAGE_NODE then false
      else incomingEdges.all (fun edge =>
        match findNode ns edge.sourceId with
        | some sourceNode => sourceNode.status == NodeStatus.COMPLETED
        | none => false))

/-- One round of the scheduler loop: compute the eligible set once against
the round-start state, then process each eligible node in order, threading
the local state exactly as the source's `for` loop does. -/
def runRound (gen : GenOracle) (conns : List Connection) (globalContext : String)
    (ns : List NodeData) : List NodeData :=
  (nodesToRun conns ns).foldl (runNode gen conns globalContext) ns

/-- Runs `k` rounds of the scheduler loop.  A quiescent round (empty eligible
set) leaves the state unchanged, so iterating past quiescence is the
identity — this models the source's `while (hasProcessed)` exit. -/
def iterRounds (gen : GenOracle) (conns : List Connection) (globalContext : String) :
    Nat → List NodeData → List NodeData
  | 0, ns => ns
  | k + 1, ns => iterRounds gen conns globalContext k (runRound gen conns globalContext ns)

/-- The instant content of a source-like node: `INPUT` uses
`node.userPrompt || ''`, `IMAGE_NODE` uses `node.imageUrls?.join('\n') || ''`. -/
def instantContent (node : NodeData) : String :=
  if node.type == NodeType.INPUT then node.userPrompt.getD ""
  else String.intercalate "\n" (node.imageUrls.getD [])

/-- Step 1 of `processWorkflowQueue` (lines 674-679): every IDLE
`INPUT`/`IMAGE_NODE` node is resolved to COMPLETED with its instant
content, independent of edges. -/
def step1 (ns : List NodeData) : List NodeData :=
  (ns.filter (fun n =>
    (n.type == NodeType.INPUT || n.type == NodeType.IMAGE_NODE)
      && n.status == NodeStatus.IDLE)).foldl
    (fun acc node =>
      updateNode acc node.id (fun n =>
        { n with status := NodeStatus.COMPLETED, content := instantContent node }))
    ns

/-- The engine entry `processWorkflowQueue`: resolve instant nodes, then run rounds until
quiescence.  The source's unbounded `while` loop is modeled with
`ns.length` rounds, which is proved below to always reach quiescence
(extra rounds past quiescence are the identity). -/
def processWorkflowQueue (gen : GenOracle) (conns : List Connection)
    (globalContext : String) (ns : List NodeData) : List NodeData :=
  iterRounds gen conns globalContext ns.length (step1 ns)

/-- The full-run reset of `executeWorkflow` (lines 771-775): every node
back to IDLE with `errorMessage` cleared (`content` is not touched). -/
def resetAllNodes (ns : List NodeData) : List NodeData :=
  ns.map (fun n => { n with status := NodeStatus.IDLE, errorMessage := none })

/-- Run button logic `executeWorkflow`: reset all nodes, then run the queue. -/
def executeWorkflow (gen : GenOracle) (conns : List Connection)
    (globalContext : String) (ns : List NodeData) : List NodeData :=
  processWorkflowQueue gen conns globalContext (resetAllNodes ns)

/-- The retry-cascade reset of `handleRetryNode` (lines 784-800): the
target node and all of its descendants go back to IDLE with `errorMessage`
cleared (`content` is not touched); every other node is left as is. -/
def retryResetNodes (conns : List Connection) (ns : List NodeData) (nodeId : String) :
    List NodeData :=
  let nodesToReset : Finset String := insert nodeId (getDescendantNodeIds conns nodeId)
  ns.map (fun n =>
    if n.id ∈ nodesToReset then { n with status := NodeStatus.IDLE, errorMessage := none }
    else n)

/-- Retry button logic `handleRetryNode`: cascade reset, then run the queue. -/
def handleRetryNode (gen : GenOracle) (conns : List Connection)
    (globalContext : String) (ns : List NodeData) (nodeId : String) : List NodeData :=
  processWorkflowQueue gen conns globalContext (retryResetNodes conns ns nodeId)

/-- During a run only `status`, `content`, `errorMessage` are mutated:
`RunFrame o nw` records that every other field of `nw` agrees with `o`. -/
def RunFrame (o nw : NodeData) : Prop :=
  nw.id = o.id ∧ nw.type = o.type ∧ nw.x = o.x ∧ nw.y = o.y ∧ nw.title = o.title ∧
  nw.userPrompt = o.userPrompt ∧ nw.systemInstruction = o.systemInstruction ∧
  nw.model = o.model ∧ nw.customTemplate = o.customTemplate ∧ nw.imageUrls = o.imageUrls

theorem RunFrame.refl (o : NodeData) : RunFrame o o := by
  simp [RunFrame]

theorem RunFrame.trans {a b c : NodeData} (h1 : RunFrame a b) (h2 : RunFrame b c) :
    RunFrame a c := by
  obtain ⟨e1, e2, e3, e4, e5, e6, e7, e8, e9, e10⟩ := h1
  obtain ⟨f1, f2, f3, f4, f5, f6, f7, f8, f9, f10⟩ := h2
  exact ⟨f1.trans e1, f2.trans e2, f3.trans e3, f4.trans e4, f5.trans e5,
    f6.trans e6, f7.trans e7, f8.trans e8, f9.trans e9, f10.trans e10⟩

/-- A dispatched node settles as COMPLETED with no error message, or as
ERROR with a message. -/
def TerminalOutcome (nw : NodeData) : Prop :=
  (nw.status = NodeStatus.COMPLETED ∧ nw.errorMessage = none) ∨
  (nw.status = NodeStatus.ERROR ∧ ∃ m, nw.errorMessage = some m)

theorem TerminalOutcome.not_idle {nw : NodeData} (h : TerminalOutcome nw) :
    nw.status ≠ NodeStatus.IDLE := by
  rcases h with ⟨h1, _⟩ | ⟨h1, _⟩ <;> simp [h1]

theorem TerminalOutcome.not_running {nw : NodeData} (h : TerminalOutcome nw) :
    nw.status ≠ NodeStatus.RUNNING := by
  rcases h with ⟨h1, _⟩ | ⟨h1, _⟩ <;> simp [h1]

/-- Effect of a batch of dispatches on one node: untouched unless its id
was dispatched, in which case only run fields changed and it settled. -/
def RoundRel (ids : List String) (o nw : NodeData) : Prop :=
  (o.id ∉ ids → nw = o) ∧ (o.id ∈ ids → RunFrame o nw ∧ TerminalOutcome nw)

theorem updateNode_updateNode (ns : List NodeData) (id : String)
    (f g : NodeData → NodeData) (hf : ∀ n, (f n).id = n.id) :
    updateNode (updateNode ns id f) id g = updateNode ns id (fun n => g (f n)) := by
  simp only [updateNode, List.map_map]
  apply List.map_congr_left
  intro n _
  by_cases h : n.id == id
  · have hfid : ((f n).id == id) = true := by
      rw [hf n]; exact h
    simp [Function.comp, h, hfid]
  · simp [Function.comp, h]

theorem forall₂_of_map {α β : Type} (f : α → β) (l : List α) :
    List.Forall₂ (fun a b => b = f a) l (l.map f) := by
  induction l with
  | nil => exact List.Forall₂.nil
  | cons a t ih => exact List.Forall₂.cons rfl ih

theorem forall₂_comp {α β γ : Type} {R1 : α → β → Prop} {R2 : β → γ → Prop}
    {R3 : α → γ → Prop} (h : ∀ a b c, R1 a b → R2 b c → R3 a c) :
    ∀ {l1 : List α} {l2 : List β} {l3 : List γ},
      List.Forall₂ R1 l1 l2 → List.Forall₂ R2 l2 l3 → List.Forall₂ R3 l1 l3 := by
  intro l1 l2 l3 h12
  induction h12 generalizing l3 with
  | nil =>
    intro h23
    cases h23
    exact List.Forall₂.nil
  | cons hab htail ih =>
    intro h23
    cases h23 with
    | cons hbc htail' => exact List.Forall₂.cons (h _ _ _ hab hbc) (ih htail')

theorem forall₂_mem_right {α β : Type} {R : α → β → Prop} {l1 : List α} {l2 : List β}
    (h : List.Forall₂ R l1 l2) : ∀ b ∈ l2, ∃ a ∈ l1, R a b := by
  induction h with
  | nil => simp
  | cons hab _ ih =>
    intro b hb
    rcases List.mem_cons.mp hb with rfl | hb'
    · exact ⟨_, List.mem_cons_self _ _, hab⟩
    · obtain ⟨a, ha, hr⟩ := ih b hb'
      exact ⟨a, List.mem_cons_of_mem _ ha, hr⟩

/-- Each `runNode` call is a per-id map: nodes with the dispatched id are rewritten
by a function preserving the frame and producing a terminal outcome;
everything else is untouched. -/
theorem runNode_spec (gen : GenOracle) (conns : List Connection) (g : String)
    (ns : List NodeData) (node : NodeData) :
    ∃ fin : NodeData → NodeData,
      runNode gen conns g ns node = ns.map (fun n => if n.id == node.id then fin n else n) ∧
      ∀ n, RunFrame n (fin n) ∧ TerminalOutcome (fin n) := by
  unfold runNode
  have hfid : ∀ n : NodeData,
      (({ n with status := NodeStatus.RUNNING, errorMessage := none } : NodeData)).id = n.id :=
    fun n => rfl
  by_cases hpv : (node.type == NodeType.OUTPUT_PREVIEW) = true
  · rw [if_pos hpv, updateNode_updateNode _ _ _ _ hfid]
    refine ⟨_, rfl, ?_⟩
    intro n
    constructor
    · simp [RunFrame]
    · exact Or.inl ⟨rfl, rfl⟩
  · rw [if_neg hpv]
    cases hgen : gen (modelOrDefault node.model)
        (assembledPrompt conns
          (updateNode ns node.id
            (fun n => { n with status := NodeStatus.RUNNING, errorMessage := none })) node)
        node.systemInstruction (some g) with
    | ok result =>
      dsimp only
      rw [updateNode_updateNode _ _ _ _ hfid]
      refine ⟨_, rfl, ?_⟩
      intro n
      constructor
      · simp [RunFrame]
      · exact Or.inl ⟨rfl, rfl⟩
    | error e =>
      dsimp only
      rw [updateNode_updateNode _ _ _ _ hfid]
      refine ⟨_, rfl, ?_⟩
      intro n
      constructor
      · simp [RunFrame]
      · exact Or.inr ⟨rfl, _, rfl⟩

/-- The dispatch loop, relating round-start and round-end states. -/
theorem foldl_runNode_spec (gen : GenOracle) (conns : List Connection) (g : String) :
    ∀ (sel : List NodeData) (ns : List NodeData),
      List.Forall₂ (RoundRel (sel.map (fun x => x.id))) ns
        (sel.foldl (runNode gen conns g) ns) := by
  intro sel
  induction sel with
  | nil =>
    intro ns
    simp only [List.foldl_nil, List.map_nil]
    exact List.forall₂_same.mpr (fun o _ =>
      ⟨fun _ => rfl, fun hmem => absurd hmem (List.not_mem_nil _)⟩)
  | cons x rest ih =>
    intro ns
    simp only [List.foldl_cons, List.map_cons]
    obtain ⟨fin, heq, hfin⟩ := runNode_spec gen conns g ns x
    have h1 : List.Forall₂
        (fun o mm => (o.id ≠ x.id → mm = o) ∧
          (o.id = x.id → RunFrame o mm ∧ TerminalOutcome mm)) ns (runNode gen conns g ns x) := by
      rw [heq]
      refine forall₂_comp ?_ (forall₂_of_map _ ns)
        (List.forall₂_same.mpr (fun b _ => rfl))
      rintro o mm mm' hmm rfl
      subst hmm
      constructor
      · intro hne
        simp [beq_eq_false_iff_ne.mpr hne]
      · intro heqid
        have : (o.id == x.id) = true := beq_iff_eq.mpr heqid
        simpa [this] using hfin o
    refine forall₂_comp ?_ h1 (ih (runNode gen conns g ns x))
    rintro o mm nw h1' h2'
    constructor
    · intro hnot
      have hne : o.id ≠ x.id := fun h => hnot (h ▸ List.mem_cons_self _ _)
      have hnr : o.id ∉ rest.map (fun x => x.id) :=
        fun h => hnot (List.mem_cons_of_mem _ h)
      have hmm : mm = o := h1'.1 hne
      subst hmm
      exact h2'.1 hnr
    · intro hmem
      by_cases hrest : o.id ∈ rest.map (fun x => x.id)
      · by_cases hx : o.id = x.id
        · obtain ⟨hfr, _⟩ := h1'.2 hx
          have hmmid : mm.id = o.id := hfr.1
          obtain ⟨hfr2, hterm2⟩ := h2'.2 (hmmid ▸ hrest)
          exact ⟨hfr.trans hfr2, hterm2⟩
        · have hmm : mm = o := h1'.1 hx
          subst hmm
          exact h2'.2 hrest
      · have hx : o.id = x.id := by
          rcases List.mem_cons.mp hmem with h | h
          · exact h
          · exact absurd h hrest
        obtain ⟨hfr, hterm⟩ := h1'.2 hx
        have hmmid : mm.id = o.id := hfr.1
        have hnw : nw = mm := h2'.1 (hmmid ▸ hrest)
        subst hnw
        exact ⟨hfr, hterm⟩

/-- One scheduler round, relating round-start and round-end states. -/
theorem runRound_spec (gen : GenOracle) (conns : List Connection) (g : String)
    (ns : List NodeData) :
    List.Forall₂ (RoundRel ((nodesToRun conns ns).map (fun x => x.id))) ns
      (runRound gen conns g ns) :=
  foldl_runNode_spec gen conns g (nodesToRun conns ns) ns

/-- Only IDLE nodes of the current state pass the readiness filter. -/
theorem mem_nodesToRun (conns : List Connection) (ns : List NodeData) (x : NodeData)
    (hx : x ∈ nodesToRun conns ns) : x ∈ ns ∧ x.status = NodeStatus.IDLE := by
  obtain ⟨hmem, hpred⟩ := List.mem_filter.mp hx
  refine ⟨hmem, ?_⟩
  by_cases h : x.status = NodeStatus.IDLE
  · exact h
  · exfalso
    have : (x.status != NodeStatus.IDLE) = true := by
      simp [bne_iff_ne, h]
    simp [this] at hpred

/-- Number of IDLE nodes, the scheduler's termination measure. -/
def countIdle (ns : List NodeData) : Nat :=
  (ns.filter (fun n => n.status == NodeStatus.IDLE)).length

theorem countIdle_le (ids : List String) {ns ms : List NodeData}
    (h : List.Forall₂ (RoundRel ids) ns ms) : countIdle ms ≤ countIdle ns := by
  induction h with
  | nil => exact Nat.le_refl _
  | @cons o nw l1 l2 hr htail ih =>
    by_cases hnw : (nw.status == NodeStatus.IDLE) = true
    · have hnwo : nw = o := by
        by_cases hmem : o.id ∈ ids
        · exact absurd (beq_iff_eq.mp hnw) ((hr.2 hmem).2.not_idle)
        · exact hr.1 hmem
      have ho : (o.status == NodeStatus.IDLE) = true := hnwo ▸ hnw
      simp only [countIdle, List.filter_cons, hnw, ho, if_pos, List.length_cons]
      exact Nat.succ_le_succ ih
    · simp only [countIdle, List.filter_cons, hnw, if_neg, if_false]
      by_cases ho : (o.status == NodeStatus.IDLE) = true
      · simp only [ho, if_pos, List.length_cons]
        exact Nat.le_succ_of_le ih
      · simp only [ho, if_neg, if_false]
        exact ih

theorem countIdle_lt (ids : List String) {ns ms : List NodeData}
    (h : List.Forall₂ (RoundRel ids) ns ms) :
    ∀ x ∈ ns, x.status = NodeStatus.IDLE → x.id ∈ ids → countIdle ms < countIdle ns := by
  induction h with
  | nil => simp
  | @cons o nw l1 l2 hr htail ih =>
    intro x hx hidle hids
    rcases List.mem_cons.mp hx with rfl | hx'
    · have hterm := (hr.2 hids).2
      have hnw : (nw.status == NodeStatus.IDLE) = false := by
        simpa using hterm.not_idle
      have ho : (x.status == NodeStatus.IDLE) = true := beq_iff_eq.mpr hidle
      simp only [countIdle, List.filter_cons, hnw, ho, if_pos, Bool.false_eq_true,
        if_false, List.length_cons]
      exact Nat.lt_succ_of_le (countIdle_le ids htail)
    · have htl := ih x hx' hidle hids
      by_cases hnw : (nw.status == NodeStatus.IDLE) = true
      · have hnwo : nw = o := by
          by_cases hmem : o.id ∈ ids
          · exact absurd (beq_iff_eq.mp hnw) ((hr.2 hmem).2.not_idle)
          · exact hr.1 hmem
        have ho : (o.status == NodeStatus.IDLE) = true := hnwo ▸ hnw
        simp only [countIdle, List.filter_cons, hnw, ho, if_pos, List.length_cons]
        exact Nat.succ_lt_succ htl
      · simp only [countIdle, List.filter_cons, hnw, Bool.false_eq_true, if_false]
        by_cases ho : (o.status == NodeStatus.IDLE) = true
        · simp only [ho, if_pos, List.length_cons]
          exact Nat.lt_succ_of_lt htl
        · simp only [ho, Bool.false_eq_true, if_false]
          exact htl

theorem runRound_of_quiescent (gen : GenOracle) (conns : List Connection) (g : String)
    {ns : List NodeData} (h : nodesToRun conns ns = []) :
    runRound gen conns g ns = ns := by
  simp [runRound, h]

theorem iterRounds_of_quiescent (gen : GenOracle) (conns : List Connection) (g : String)
    {ns : List NodeData} (h : nodesToRun conns ns = []) (k : Nat) :
    iterRounds gen conns g k ns = ns := by
  induction k with
  | zero => rfl
  | succ k ih => simp [iterRounds, runRound_of_quiescent gen conns g h, ih]

theorem countIdle_pos {ns : List NodeData} {x : NodeData}
    (hx : x ∈ ns) (hidle : x.status = NodeStatus.IDLE) : 0 < countIdle ns := by
  have : x ∈ ns.filter (fun n => n.status == NodeStatus.IDLE) :=
    List.mem_filter.mpr ⟨hx, beq_iff_eq.mpr hidle⟩
  exact List.length_pos.mpr (List.ne_nil_of_mem this)

theorem countIdle_runRound_lt (gen : GenOracle) (conns : List Connection) (g : String)
    {ns : List NodeData} (h : nodesToRun conns ns ≠ []) :
    countIdle (runRound gen conns g ns) < countIdle ns := by
  obtain ⟨x, hx⟩ := List.exists_mem_of_ne_nil _ h
  obtain ⟨hmem, hidle⟩ := mem_nodesToRun conns ns x hx
  exact countIdle_lt _ (runRound_spec gen conns g ns) x hmem hidle
    (List.mem_map.mpr ⟨x, hx, rfl⟩)



/-- Termination skeleton: once the number of remaining IDLE nodes is at
most `m`, `m` rounds reach quiescence. -/
theorem quiescent_after_countIdle (gen : GenOracle) (conns : List Connection) (g : String) :
    ∀ (m : Nat) (ns : List NodeData), countIdle ns ≤ m →
      nodesToRun conns (iterRounds gen conns g m ns) = [] := by
  intro m
  induction m with
  | zero =>
    intro ns hc
    by_contra hne
    obtain ⟨x, hx⟩ := List.exists_mem_of_ne_nil _ hne
    obtain ⟨hmem, hidle⟩ := mem_nodesToRun conns _ x hx
    have := countIdle_pos hmem hidle
    simp only [iterRounds] at this hx hmem
    omega
  | succ m ih =>
    intro ns hc
    by_cases hq : nodesToRun conns ns = []
    · show nodesToRun conns (iterRounds gen conns g (m + 1) ns) = []
      rw [iterRounds, runRound_of_quiescent gen conns g hq,
        iterRounds_of_quiescent gen conns g hq]
      exact hq
    · have hlt := countIdle_runRound_lt gen conns g hq
      exact ih _ (by omega)

/-- The scheduler loop always reaches quiescence within `|Nodes|` rounds. -/
theorem quiescent_at_length (gen : GenOracle) (conns : List Connection) (g : String)
    (ns : List NodeData) :
    nodesToRun conns (iterRounds gen conns g ns.length ns) = [] :=
  quiescent_after_countIdle gen conns g ns.length ns (List.length_filter_le _ _)

/-- The filter predicate of Step 1: an IDLE source-like node. -/
def instantIdle (n : NodeData) : Bool :=
  (n.type == NodeType.INPUT || n.type == NodeType.IMAGE_NODE)
    && n.status == NodeStatus.IDLE

/-- The Step 1 resolution of a source-like node. -/
def doneInstant (n : NodeData) : NodeData :=
  { n with status := NodeStatus.COMPLETED, content := instantContent n }

theorem forall₂_mem_left {α β : Type} {R : α → β → Prop} :
    ∀ {l1 : List α} {l2 : List β}, List.Forall₂ R l1 l2 →
      List.Forall₂ (fun a b => a ∈ l1 ∧ R a b) l1 l2 := by
  intro l1 l2 h
  induction h with
  | nil => exact List.Forall₂.nil
  | cons hab htail ih =>
    refine List.Forall₂.cons ⟨List.mem_cons_self _ _, hab⟩ ?_
    exact ih.imp (fun a b hb => ⟨List.mem_cons_of_mem _ hb.1, hb.2⟩)

/-- After Step 1 no source-like node is still IDLE (every IDLE
`INPUT`/`IMAGE_NODE` node was resolved by its own filter entry, and
resolution only ever sets COMPLETED). -/
theorem step1_no_instant_idle (ns : List NodeData) :
    ∀ n ∈ step1 ns, instantIdle n = false := by
  have aux : ∀ (F : List NodeData) (acc : List NodeData),
      (∀ n ∈ acc, instantIdle n = true → n.id ∈ F.map (fun x => x.id)) →
      ∀ n ∈ F.foldl (fun acc node => updateNode acc node.id (fun n =>
          { n with status := NodeStatus.COMPLETED, content := instantContent node })) acc,
        instantIdle n = false := by
    intro F
    induction F with
    | nil =>
      intro acc hacc n hn
      by_contra hfalse
      have : instantIdle n = true := by
        cases h : instantIdle n
        · exact absurd h hfalse
        · rfl
      simpa using hacc n hn this
    | cons x rest ih =>
      intro acc hacc n hn
      refine ih _ ?_ n (by simpa [List.foldl_cons] using hn)
      intro n' hn' hidle
      obtain ⟨a, ha, rfl⟩ := List.mem_map.mp hn'
      by_cases h : (a.id == x.id) = true
      · simp only [h, if_pos] at hidle
        simp [instantIdle] at hidle
      · simp only [h, Bool.false_eq_true, if_false] at hidle ⊢
        have := hacc a ha hidle
        simp only [List.map_cons, List.mem_cons] at this
        rcases this with h1 | h1
        · exact absurd (beq_iff_eq.mpr h1) (by simpa using h)
        · exact h1
  intro n hn
  refine aux _ ns ?_ n hn
  intro n' hn' hidle
  exact List.mem_map.mpr ⟨n', List.mem_filter.mpr ⟨hn', by simpa [instantIdle] using hidle⟩, rfl⟩

/-- Per-node effect of Step 1 under unique ids: IDLE source-like nodes are
resolved, everything else is untouched. -/
def Step1Rel (o nw : NodeData) : Prop :=
  (instantIdle o = true → nw = doneInstant o) ∧ (instantIdle o = false → nw = o)

theorem step1_spec (ns : List NodeData) (hnodup : (ns.map (fun n => n.id)).Nodup) :
    List.Forall₂ Step1Rel ns (step1 ns) := by
  have hinj : ∀ ⦃a⦄, a ∈ ns → ∀ ⦃b⦄, b ∈ ns → a.id = b.id → a = b :=
    List.inj_on_of_nodup_map hnodup
  have aux : ∀ (F : List NodeData),
      (∀ x ∈ F, x ∈ ns ∧ instantIdle x = true) →
      (F.map (fun x => x.id)).Nodup →
      ∀ (acc : List NodeData),
      List.Forall₂ (fun o a => o ∈ ns →
        ((instantIdle o = true → ((o.id ∈ F.map (fun x => x.id) → a = o) ∧
          (o.id ∉ F.map (fun x => x.id) → a = doneInstant o))) ∧
         (instantIdle o = false → a = o))) ns acc →
      List.Forall₂ (fun o a => o ∈ ns →
        ((instantIdle o = true → a = doneInstant o) ∧ (instantIdle o = false → a = o)))
        ns (F.foldl (fun acc node => updateNode acc node.id (fun n =>
          { n with status := NodeStatus.COMPLETED, content := instantContent node })) acc) := by
    intro F
    induction F with
    | nil =>
      intro _ _ acc hacc
      simp only [List.foldl_nil]
      refine hacc.imp ?_
      intro o a h hos
      obtain ⟨h1, h2⟩ := h hos
      exact ⟨fun hi => (h1 hi).2 (by simp), h2⟩
    | cons x rest ih =>
      intro hF hFnodup acc hacc
      obtain ⟨hxns, hxidle⟩ := hF x (List.mem_cons_self _ _)
      rw [List.map_cons] at hFnodup
      have hxrest : x.id ∉ rest.map (fun y => y.id) := (List.nodup_cons.mp hFnodup).1
      simp only [List.foldl_cons]
      refine ih (fun y hy => hF y (List.mem_cons_of_mem _ hy))
        ((List.nodup_cons.mp hFnodup).2) _ ?_
      have hstep : List.Forall₂ (fun a a' =>
          a' = if a.id == x.id then
            { a with status := NodeStatus.COMPLETED, content := instantContent x } else a)
          acc (updateNode acc x.id (fun n =>
            { n with status := NodeStatus.COMPLETED, content := instantContent x })) :=
        forall₂_of_map _ acc
      refine forall₂_comp ?_ hacc hstep
      intro o a a' hoa ha'
      intro hons
      obtain ⟨h1, h2⟩ := hoa hons
      have haid : a.id = o.id := by
        cases hio : instantIdle o with
        | true =>
          by_cases hidF : o.id ∈ (x :: rest).map (fun y => y.id)
          · rw [(h1 hio).1 hidF]
          · rw [(h1 hio).2 hidF]; rfl
        | false => rw [h2 hio]
      constructor
      · intro hio
        constructor
        · intro hmem
          have hne : o.id ≠ x.id := by
            intro heq
            exact hxrest (heq ▸ hmem)
          have : (a.id == x.id) = false := by
            simp [haid, hne]
          rw [ha', this]
          simp only [Bool.false_eq_true, if_false]
          exact (h1 hio).1 (List.mem_cons.mpr (Or.inr hmem))
        · intro hmem
          by_cases hx : o.id = x.id
          · have hox : o = x := hinj hons hxns hx
            have hmemF : o.id ∈ (x :: rest).map (fun y => y.id) := by
              simp [List.map_cons, hx]
            have ha : a = o := (h1 hio).1 hmemF
            have : (a.id == x.id) = true := by simp [haid, hx]
            rw [ha', this]
            simp only [if_pos]
            rw [ha, hox]
            rfl
          · have hmemF : o.id ∉ (x :: rest).map (fun y => y.id) := by
              simp only [List.map_cons, List.mem_cons]
              rintro (h | h)
              · exact hx h
              · exact hmem h
            have ha : a = doneInstant o := (h1 hio).2 hmemF
            have : (a.id == x.id) = false := by simp [haid, hx]
            rw [ha', this]
            simp only [Bool.false_eq_true, if_false]
            exact ha
      · intro hio
        have ha : a = o := h2 hio
        by_cases hx : o.id = x.id
        · exact absurd (hinj hons hxns hx ▸ hio) (by simp [hxidle])
        · have : (a.id == x.id) = false := by simp [haid, hx]
          rw [ha', this]
          simp only [Bool.false_eq_true, if_false]
          exact ha
  have hbase : List.Forall₂ (fun o a => o ∈ ns →
      ((instantIdle o = true →
        ((o.id ∈ (ns.filter instantIdle).map (fun x => x.id) → a = o) ∧
         (o.id ∉ (ns.filter instantIdle).map (fun x => x.id) → a = doneInstant o))) ∧
       (instantIdle o = false → a = o))) ns ns := by
    refine List.forall₂_same.mpr ?_
    intro o ho _
    refine ⟨fun hio => ⟨fun _ => rfl, fun hmem => ?_⟩, fun _ => rfl⟩
    exact absurd (List.mem_map.mpr ⟨o, List.mem_filter.mpr ⟨ho, hio⟩, rfl⟩) hmem
  have hFprop : ∀ x ∈ ns.filter instantIdle, x ∈ ns ∧ instantIdle x = true := by
    intro x hx
    exact ⟨List.mem_of_mem_filter hx, List.of_mem_filter hx⟩
  have hFnodup : ((ns.filter instantIdle).map (fun x => x.id)).Nodup :=
    ((List.filter_sublist _).map _).nodup hnodup
  have hfinal := aux (ns.filter instantIdle) hFprop hFnodup ns hbase
  have hsame : step1 ns = (ns.filter instantIdle).foldl
      (fun acc node => updateNode acc node.id (fun n =>
        { n with status := NodeStatus.COMPLETED, content := instantContent node })) ns := rfl
  rw [hsame]
  exact (forall₂_mem_left hfinal).imp (fun o a h => h.2 h.1)

/-- Per-node effect of the retry cascade: nodes in the reach set of the
target go back to IDLE with `errorMessage` cleared and every other field
(including `content`) kept; all other nodes are untouched. -/
def RetryRel (conns : List Connection) (nodeId : String) (o nw : NodeData) : Prop :=
  ((o.id = nodeId ∨ Reach1 conns nodeId o.id) →
    nw = { o with status := NodeStatus.IDLE, errorMessage := none }) ∧
  (¬(o.id = nodeId ∨ Reach1 conns nodeId o.id) → nw = o)

/-- C1, counterexample to the claim as stated: the retry cascade does NOT
clear `content`.  Retrying node "B" (Completed with content "X", no
descendants) leaves it IDLE with `errorMessage` cleared but content still
"X", while the claim requires the content of every node in the reset set
to be cleared. -/
theorem claim_C1_counterexample :
    (retryResetNodes [] [{ id := "B", status := NodeStatus.COMPLETED, content := "X" }] "B").map
      (fun n => (n.status, n.content, n.errorMessage)) =
      [(NodeStatus.IDLE, "X", none)] ∧ ("X" : String) ≠ "" := by
  constructor
  · decide
  · decide

/-- C1 (amended): invoking the retry cascade on a target node id resets
exactly the set `{targetId} ∪ descendants(targetId)` (the ids reachable
through one or more connections) to Idle, clearing `errorMessage` but
leaving `content` in place, and leaves every node outside the set
completely unchanged. -/
theorem claim_C1_amended (conns : List Connection) (ns : List NodeData) (nodeId : String) :
    (∀ id, id ∈ insert nodeId (getDescendantNodeIds conns nodeId) ↔
      (id = nodeId ∨ Reach1 conns nodeId id)) ∧
    List.Forall₂ (RetryRel conns nodeId) ns (retryResetNodes conns ns nodeId) := by
  have hmem : ∀ id, id ∈ insert nodeId (getDescendantNodeIds conns nodeId) ↔
      (id = nodeId ∨ Reach1 conns nodeId id) := by
    intro id
    rw [Finset.mem_insert, mem_getDescendantNodeIds]
  refine ⟨hmem, ?_⟩
  have hmap := forall₂_of_map (fun n =>
    if n.id ∈ insert nodeId (getDescendantNodeIds conns nodeId) then
      { n with status := NodeStatus.IDLE, errorMessage := none } else n) ns
  refine hmap.imp ?_
  intro o nw h
  constructor
  · intro hreach
    rw [h, if_pos ((hmem o.id).mpr hreach)]
  · intro hnot
    rw [h, if_neg (fun hmemb => hnot ((hmem o.id).mp hmemb))]

/-- Witness for C1 (amended), instantiated on the one-edge graph B→C. -/
theorem claim_C1_amended_witness :
    ("C" ∈ insert "B" (getDescendantNodeIds [{ id := "e", sourceId := "B", targetId := "C" }] "B"))
      ↔ ("C" = "B" ∨ Reach1 [{ id := "e", sourceId := "B", targetId := "C" }] "B" "C") :=
  (claim_C1_amended [{ id := "e", sourceId := "B", targetId := "C" }] [] "B").1 "C"

/-- The per-node effect of the full-run reset of `executeWorkflow`. -/
def ResetRel (o nw : NodeData) : Prop :=
  nw = { o with status := NodeStatus.IDLE, errorMessage := none }

/-- Invariant: `errorMessage` is set only on ERROR nodes. -/
def ErrorMsgInv (ns : List NodeData) : Prop :=
  ∀ n ∈ ns, n.errorMessage ≠ none → n.status = NodeStatus.ERROR

/-- C2, counterexample to the claim as stated: the full-run reset does NOT
clear `content`, so a node can be IDLE with non-empty content — the
claimed invariant "content is non-empty only if status is Completed" fails
on states produced by the engine's own reset. -/
theorem claim_C2_counterexample :
    (resetAllNodes [{ id := "A", status := NodeStatus.COMPLETED, content := "X" }]).map
      (fun n => (n.status, n.content, n.errorMessage)) =
      [(NodeStatus.IDLE, "X", none)] ∧ ("X" : String) ≠ "" := by
  constructor
  · decide
  · decide

theorem errorMsgInv_runRound (gen : GenOracle) (conns : List Connection) (g : String)
    {ns : List NodeData} (h : ErrorMsgInv ns) : ErrorMsgInv (runRound gen conns g ns) := by
  intro n' hn' hem
  obtain ⟨o, ho, hr⟩ := forall₂_mem_right (runRound_spec gen conns g ns) n' hn'
  by_cases hmemb : o.id ∈ (nodesToRun conns ns).map (fun x => x.id)
  · rcases (hr.2 hmemb).2 with ⟨_, he⟩ | ⟨hs, _⟩
    · exact absurd he hem
    · exact hs
  · rw [hr.1 hmemb] at hem ⊢
    exact h o ho hem

theorem errorMsgInv_step1 {ns : List NodeData} (hnodup : (ns.map (fun n => n.id)).Nodup)
    (h : ErrorMsgInv ns) : ErrorMsgInv (step1 ns) := by
  intro n' hn' hem
  obtain ⟨o, ho, hr⟩ := forall₂_mem_right (step1_spec ns hnodup) n' hn'
  cases hio : instantIdle o with
  | true =>
    have hn'eq : n' = doneInstant o := hr.1 hio
    have hoidle : o.status = NodeStatus.IDLE := by
      have := hio
      simp only [instantIdle, Bool.and_eq_true, beq_iff_eq] at this
      exact this.2
    have hoem : o.errorMessage ≠ none := by
      rw [hn'eq] at hem
      exact hem
    have := h o ho hoem
    rw [hoidle] at this
    exact absurd this (by decide)
  | false =>
    rw [hr.2 hio] at hem ⊢
    exact h o ho hem

theorem errorMsgInv_iterRounds (gen : GenOracle) (conns : List Connection) (g : String) :
    ∀ (k : Nat) {ns : List NodeData}, ErrorMsgInv ns →
      ErrorMsgInv (iterRounds gen conns g k ns) := by
  intro k
  induction k with
  | zero => intro ns h; exact h
  | succ k ih => intro ns h; exact ih (errorMsgInv_runRound gen conns g h)

/-- C2 (amended): resets return nodes to Idle clearing `errorMessage` but
leaving `content` untouched; the half of the claimed invariant that does
hold throughout a run is that `errorMessage` is set only on Error nodes —
it holds after the full-run reset, after the retry-cascade reset, and
after Step 1 plus any number of scheduler rounds (unique node ids
assumed). -/
theorem claim_C2_amended (gen : GenOracle) (conns : List Connection) (g : String)
    (ns : List NodeData) (nodeId : String) (k : Nat)
    (hnodup : (ns.map (fun n => n.id)).Nodup) (hinv : ErrorMsgInv ns) :
    List.Forall₂ ResetRel ns (resetAllNodes ns) ∧
    ErrorMsgInv (resetAllNodes ns) ∧
    ErrorMsgInv (retryResetNodes conns ns nodeId) ∧
    ErrorMsgInv (iterRounds gen conns g k (step1 ns)) := by
  refine ⟨?_, ?_, ?_, ?_⟩
  · exact (forall₂_of_map _ ns).imp (fun o nw h => h)
  · intro n hn hem
    obtain ⟨o, _, rfl⟩ := List.mem_map.mp hn
    exact absurd rfl hem
  · intro n hn hem
    obtain ⟨o, ho, hr⟩ := forall₂_mem_right (claim_C1_amended conns ns nodeId).2 n hn
    by_cases hreach : o.id = nodeId ∨ Reach1 conns nodeId o.id
    · rw [hr.1 hreach] at hem
      exact absurd rfl hem
    · rw [hr.2 hreach] at hem ⊢
      exact hinv o ho hem
  · exact errorMsgInv_iterRounds gen conns g k (errorMsgInv_step1 hnodup hinv)

/-- Witness for C2 (amended): a one-node workspace holding an Error node
with a message; the invariant holds at every stage. -/
theorem claim_C2_amended_witness :
    ((([{ id := "A", type := NodeType.AI_GENERATOR, status := NodeStatus.ERROR, errorMessage := some "boom" }] : List NodeData).map (fun n => n.id)).Nodup ∧
      ErrorMsgInv [{ id := "A", type := NodeType.AI_GENERATOR, status := NodeStatus.ERROR, errorMessage := some "boom" }]) ∧
    ErrorMsgInv (iterRounds (fun _ _ _ _ => Except.ok "t") [] "" 1
      (step1 [{ id := "A", type := NodeType.AI_GENERATOR, status := NodeStatus.ERROR, errorMessage := some "boom" }])) :=
  ⟨⟨by decide, by intro n hn hem; rcases List.mem_singleton.mp hn with rfl; rfl⟩,
    (claim_C2_amended (fun _ _ _ _ => Except.ok "t") [] "" _ "A" 1
      (by decide) (by intro n hn hem; rcases List.mem_singleton.mp hn with rfl; rfl)).2.2.2⟩

/-- Per-node effect of Step 1 stated by kind: an IDLE Source-Text node is
completed with its configured prompt text, an IDLE Source-Image node with
its image locators joined by newlines (`imageUrls` untouched). -/
def SourceResolveRel (o nw : NodeData) : Prop :=
  (o.type = NodeType.INPUT → o.status = NodeStatus.IDLE →
    nw = { o with status := NodeStatus.COMPLETED, content := o.userPrompt.getD "" }) ∧
  (o.type = NodeType.IMAGE_NODE → o.status = NodeStatus.IDLE →
    nw = { o with status := NodeStatus.COMPLETED, content := String.intercalate "\n" (o.imageUrls.getD []) })

/-- C7: in the scheduler's first resolution step, every Idle Source-Text
node becomes Completed with content equal to its configured prompt text
(possibly empty), and every Idle Source-Image node becomes Completed with
content equal to its `imageUrls` joined with newlines, with `imageUrls`
left unchanged.  `step1` does not consult the connection list at all, so
this holds regardless of the node's edges.  Unique node ids assumed. -/
theorem claim_C7 (ns : List NodeData) (hnodup : (ns.map (fun n => n.id)).Nodup) :
    List.Forall₂ SourceResolveRel ns (step1 ns) := by
  refine (step1_spec ns hnodup).imp ?_
  intro o nw h
  constructor
  · intro htype hstatus
    have hio : instantIdle o = true := by
      simp [instantIdle, htype, hstatus]
    rw [h.1 hio]
    simp [doneInstant, instantContent, htype]
  · intro htype hstatus
    have hio : instantIdle o = true := by
      simp [instantIdle, htype, hstatus]
    rw [h.1 hio]
    have : (o.type == NodeType.INPUT) = false := by
      simp [htype]
    simp [doneInstant, instantContent, this]

/-- Witness for C7 on a concrete one-source workspace. -/
theorem claim_C7_witness :
    ((([{ id := "a", type := NodeType.INPUT, userPrompt := some "hi" }] : List NodeData).map
        (fun n => n.id)).Nodup) ∧
    List.Forall₂ SourceResolveRel
      [{ id := "a", type := NodeType.INPUT, userPrompt := some "hi" }]
      (step1 [{ id := "a", type := NodeType.INPUT, userPrompt := some "hi" }]) :=
  ⟨by decide, claim_C7 [{ id := "a", type := NodeType.INPUT, userPrompt := some "hi" }] (by decide)⟩

/-- Bounded reachability between ids through the connection list. -/
def canReachIn (conns : List Connection) : Nat → String → String → Bool
  | 0, a, b => a == b
  | k + 1, a, b => a == b || conns.any (fun c => c.sourceId == a && canReachIn conns k c.targetId b)

/-- Decidable acyclicity: no connection closes a cycle (its target never
reaches back to its source). -/
def isAcyclic (conns : List Connection) : Bool :=
  conns.all (fun c => !canReachIn conns conns.length c.targetId c.sourceId)

/-- C3: for every finite node set whose edge set forms a DAG, the
scheduler loop reaches quiescence within `|Nodes|` rounds, every round
with a non-empty eligible set strictly decreases the number of IDLE nodes
(so moves at least one previously-Idle node out of Idle), and the
readiness filter never dispatches a node whose status is Completed, Error,
or Running.  (The first two properties hold for arbitrary edge sets; the
DAG hypothesis keeps the claim as stated.) -/
theorem claim_C3 (gen : GenOracle) (conns : List Connection) (g : String)
    (_hdag : isAcyclic conns = true) :
    (∀ ns : List NodeData, nodesToRun conns (iterRounds gen conns g ns.length ns) = []) ∧
    (∀ ns : List NodeData, nodesToRun conns ns ≠ [] →
      countIdle (runRound gen conns g ns) < countIdle ns) ∧
    (∀ (ns : List NodeData) (x : NodeData), x ∈ nodesToRun conns ns →
      x.status = NodeStatus.IDLE) :=
  ⟨fun ns => quiescent_at_length gen conns g ns,
   fun _ h => countIdle_runRound_lt gen conns g h,
   fun ns x hx => (mem_nodesToRun conns ns x hx).2⟩

/-- Witness for C3: an acyclic two-node chain reaches quiescence in
`|Nodes|` rounds. -/
theorem claim_C3_witness :
    isAcyclic [{ id := "e", sourceId := "a", targetId := "b" }] = true ∧
    nodesToRun [{ id := "e", sourceId := "a", targetId := "b" }]
      (iterRounds (fun _ _ _ _ => Except.ok "t") [{ id := "e", sourceId := "a", targetId := "b" }] ""
        ([{ id := "a", type := NodeType.INPUT, userPrompt := some "hi" },
          { id := "b", type := NodeType.AI_GENERATOR }] : List NodeData).length
        [{ id := "a", type := NodeType.INPUT, userPrompt := some "hi" },
         { id := "b", type := NodeType.AI_GENERATOR }]) = [] :=
  ⟨by decide,
    (claim_C3 (fun _ _ _ _ => Except.ok "t") [{ id := "e", sourceId := "a", targetId := "b" }] ""
      (by decide)).1
      [{ id := "a", type := NodeType.INPUT, userPrompt := some "hi" },
       { id := "b", type := NodeType.AI_GENERATOR }]⟩

/-- A set of ids in which every member has an incoming connection from a
member — the shape shared by every directed cycle. -/
def CycleSet (conns : List Connection) (C : List String) : Prop :=
  ∀ id ∈ C, ∃ c ∈ conns, c.targetId = id ∧ c.sourceId ∈ C

/-- Node kinds that require upstream input (not source-like, not
Brainstorm). -/
def requiresInput (t : NodeType) : Bool :=
  !(t == NodeType.INPUT || t == NodeType.IMAGE_NODE || t == NodeType.AI_BRAINSTORM)

/-- All nodes of the cycle set are IDLE and of input-requiring kinds. -/
def CycleIdle (C : List String) (ns : List NodeData) : Prop :=
  ∀ n ∈ ns, n.id ∈ C → n.status = NodeStatus.IDLE ∧ requiresInput n.type = true

theorem findNode_some {ns : List NodeData} {id : String} {n : NodeData}
    (h : findNode ns id = some n) : n ∈ ns ∧ n.id = id := by
  refine ⟨List.mem_of_find?_eq_some h, ?_⟩
  have := List.find?_some h
  exact beq_iff_eq.mp this

theorem cycleIdle_not_selected (conns : List Connection) (C : List String)
    (hC : CycleSet conns C) {ns : List NodeData} (h : CycleIdle C ns) :
    ∀ x ∈ nodesToRun conns ns, x.id ∉ C := by
  intro x hx hxc
  obtain ⟨hmem, hpred⟩ := List.mem_filter.mp hx
  obtain ⟨hidle, hreq⟩ := h x hmem hxc
  obtain ⟨c, hcconns, hct, hcs⟩ := hC x.id hxc
  have hb : (x.type == NodeType.AI_BRAINSTORM) = false := by
    simp only [requiresInput, Bool.not_eq_true', Bool.or_eq_false_iff] at hreq
    exact hreq.2
  have hst : (x.status != NodeStatus.IDLE) = false := by
    simp [bne, hidle]
  simp only [hst, Bool.false_eq_true, if_false, hb, if_neg] at hpred
  have hcinc : c ∈ incomingOf conns x.id :=
    List.mem_filter.mpr ⟨hcconns, by simp [hct]⟩
  have hcount : ((incomingOf conns x.id).length == 0) = false := by
    have : incomingOf conns x.id ≠ [] := List.ne_nil_of_mem hcinc
    simpa [List.length_eq_zero] using this
  simp only [hcount, Bool.false_and, Bool.false_eq_true, if_false] at hpred
  have hall := List.all_eq_true.mp hpred c hcinc
  cases hfind : findNode ns c.sourceId with
  | none => simp [hfind] at hall
  | some s =>
    obtain ⟨hsns, hsid⟩ := findNode_some hfind
    have hsC : s.id ∈ C := hsid ▸ hcs
    have hsidle : s.status = NodeStatus.IDLE := (h s hsns hsC).1
    rw [hfind] at hall
    have : s.status = NodeStatus.COMPLETED := beq_iff_eq.mp hall
    rw [hsidle] at this
    exact absurd this (by decide)

theorem cycleIdle_runRound (gen : GenOracle) (conns : List Connection) (g : String)
    (C : List String) (hC : CycleSet conns C) {ns : List NodeData} (h : CycleIdle C ns) :
    CycleIdle C (runRound gen conns g ns) := by
  intro n' hn' hidC
  obtain ⟨o, ho, hr⟩ := forall₂_mem_right (runRound_spec gen conns g ns) n' hn'
  by_cases hmemb : o.id ∈ (nodesToRun conns ns).map (fun x => x.id)
  · obtain ⟨x, hx, hxid⟩ := List.mem_map.mp hmemb
    have hxC : x.id ∉ C := cycleIdle_not_selected conns C hC h x hx
    have hid : n'.id = o.id := (hr.2 hmemb).1.1
    have : x.id ∈ C := by rw [hxid, ← hid]; exact hidC
    exact absurd this hxC
  · have heq : n' = o := hr.1 hmemb
    subst heq
    exact h n' ho hidC

theorem cycleIdle_step1 (C : List String) {ns : List NodeData} (h : CycleIdle C ns) :
    CycleIdle C (step1 ns) := by
  have aux : ∀ (F : List NodeData), (∀ x ∈ F, x.id ∉ C) →
      ∀ (acc : List NodeData), CycleIdle C acc →
      CycleIdle C (F.foldl (fun acc node => updateNode acc node.id (fun n =>
        { n with status := NodeStatus.COMPLETED, content := instantContent node })) acc) := by
    intro F
    induction F with
    | nil => intro _ acc hacc; exact hacc
    | cons x rest ih =>
      intro hF acc hacc
      simp only [List.foldl_cons]
      refine ih (fun y hy => hF y (List.mem_cons_of_mem _ hy)) _ ?_
      intro n' hn' hidC
      obtain ⟨a, ha, rfl⟩ := List.mem_map.mp hn'
      by_cases hax : (a.id == x.id) = true
      · have : a.id ∈ C := by
          simpa [hax] using hidC
        exact absurd (beq_iff_eq.mp hax ▸ this) (hF x (List.mem_cons_self _ _))
      · simp only [hax, Bool.false_eq_true, if_false] at hidC ⊢
        exact hacc a ha hidC
  have hF : ∀ x ∈ ns.filter instantIdle, x.id ∉ C := by
    intro x hx hxC
    have hxns := List.mem_of_mem_filter hx
    have hxi := List.of_mem_filter hx
    have hreq := (h x hxns hxC).2
    simp only [instantIdle, Bool.and_eq_true, Bool.or_eq_true, beq_iff_eq] at hxi
    simp only [requiresInput, Bool.not_eq_true', Bool.or_eq_false_iff, beq_eq_false_iff_ne] at hreq
    rcases hxi.1 with h1 | h1
    · exact (hreq.1).1 h1
    · exact (hreq.1).2 h1
  have hsame : step1 ns = (ns.filter instantIdle).foldl
      (fun acc node => updateNode acc node.id (fun n =>
        { n with status := NodeStatus.COMPLETED, content := instantContent node })) ns := rfl
  rw [hsame]
  exact aux _ hF ns h

theorem cycleIdle_iterRounds (gen : GenOracle) (conns : List Connection) (g : String)
    (C : List String) (hC : CycleSet conns C) :
    ∀ (k : Nat) {ns : List NodeData}, CycleIdle C ns →
      CycleIdle C (iterRounds gen conns g k ns) := by
  intro k
  induction k with
  | zero => intro ns h; exact h
  | succ k ih => intro ns h; exact ih (cycleIdle_runRound gen conns g C hC h)

theorem step1_length (ns : List NodeData) : (step1 ns).length = ns.length := by
  have aux : ∀ (F : List NodeData) (acc : List NodeData),
      (F.foldl (fun acc node => updateNode acc node.id (fun n =>
        { n with status := NodeStatus.COMPLETED, content := instantContent node })) acc).length =
      acc.length := by
    intro F
    induction F with
    | nil => intro acc; rfl
    | cons x rest ih =>
      intro acc
      simp only [List.foldl_cons]
      rw [ih]
      simp [updateNode]
  exact aux _ ns

/-- C10, counterexample to the claim as stated: a cyclic edge set does not
leave the cycle's nodes Idle.  On the two-node cycle a⇄b where a is a
Source-Text node, Step 1 completes a regardless of its edges, b then
becomes eligible (its only source is Completed), and both cycle members
finish Completed — the claim's "nodes on a cycle never have all their
incoming edges' sources Completed" and "the loop exits leaving the cycle's
nodes with status Idle" both fail. -/
theorem claim_C10_counterexample :
    (processWorkflowQueue (fun _ _ _ _ => Except.ok "t")
      [{ id := "c1", sourceId := "a", targetId := "b" },
       { id := "c2", sourceId := "b", targetId := "a" }] ""
      [{ id := "a", type := NodeType.INPUT, userPrompt := some "hi" },
       { id := "b", type := NodeType.AI_GENERATOR }]).map (fun n => (n.id, n.status)) =
      [("a", NodeStatus.COMPLETED), ("b", NodeStatus.COMPLETED)] ∧
    NodeStatus.COMPLETED ≠ NodeStatus.IDLE := by
  constructor
  · decide
  · decide

/-- C10 (amended): the scheduler loop terminates for every finite graph,
cycles included — after `|Nodes|` rounds the eligible set is empty — and a
cycle all of whose members are IDLE nodes of input-requiring kinds is
never dispatched: its nodes are still IDLE after Step 1 and any number of
rounds.  (Cycle members that are source-like or Brainstorm nodes can
complete, as the counterexample shows.) -/
theorem claim_C10_amended (gen : GenOracle) (conns : List Connection) (g : String)
    (ns : List NodeData) (C : List String)
    (hC : CycleSet conns C) (hcyc : CycleIdle C ns) :
    nodesToRun conns (processWorkflowQueue gen conns g ns) = [] ∧
    (∀ k : Nat, CycleIdle C (iterRounds gen conns g k (step1 ns))) := by
  constructor
  · have h := quiescent_at_length gen conns g (step1 ns)
    rw [step1_length] at h
    exact h
  · intro k
    exact cycleIdle_iterRounds gen conns g C hC k (cycleIdle_step1 C hcyc)

/-- Witness for C10 (amended): a two-node cycle of Generator nodes stays
IDLE and the run still reaches quiescence. -/
theorem claim_C10_amended_witness :
    (CycleSet [{ id := "c1", sourceId := "a", targetId := "b" },
               { id := "c2", sourceId := "b", targetId := "a" }] ["a", "b"] ∧
     CycleIdle ["a", "b"]
       [{ id := "a", type := NodeType.AI_GENERATOR }, { id := "b", type := NodeType.AI_GENERATOR }]) ∧
    nodesToRun [{ id := "c1", sourceId := "a", targetId := "b" },
                { id := "c2", sourceId := "b", targetId := "a" }]
      (processWorkflowQueue (fun _ _ _ _ => Except.ok "t")
        [{ id := "c1", sourceId := "a", targetId := "b" },
         { id := "c2", sourceId := "b", targetId := "a" }] ""
        [{ id := "a", type := NodeType.AI_GENERATOR }, { id := "b", type := NodeType.AI_GENERATOR }]) = [] :=
  ⟨⟨by unfold CycleSet; decide, by unfold CycleIdle; decide⟩,
    (claim_C10_amended (fun _ _ _ _ => Except.ok "t")
      [{ id := "c1", sourceId := "a", targetId := "b" },
       { id := "c2", sourceId := "b", targetId := "a" }] ""
      [{ id := "a", type := NodeType.AI_GENERATOR }, { id := "b", type := NodeType.AI_GENERATOR }]
      ["a", "b"] (by unfold CycleSet; decide) (by unfold CycleIdle; decide)).1⟩

/-- The blocking scenario of §8: every node carrying id `aId` is in Error,
every node carrying id `bId` is Idle and of an input-requiring kind. -/
def BlockedInv (aId bId : String) (ns : List NodeData) : Prop :=
  (∀ n ∈ ns, n.id = aId → n.status = NodeStatus.ERROR) ∧
  (∀ n ∈ ns, n.id = bId → n.status = NodeStatus.IDLE ∧ requiresInput n.type = true)

theorem blockedInv_not_selected (conns : List Connection) {aId bId : String}
    {e : Connection} (he : e ∈ conns) (het : e.targetId = bId) (hes : e.sourceId = aId)
    {ns : List NodeData} (h : BlockedInv aId bId ns) :
    ∀ x ∈ nodesToRun conns ns, x.id ≠ aId ∧ x.id ≠ bId := by
  intro x hx
  obtain ⟨hmem, hidle⟩ := mem_nodesToRun conns ns x hx
  constructor
  · intro hxa
    have := (h.1 x hmem hxa)
    rw [hidle] at this
    exact absurd this (by decide)
  · intro hxb
    obtain ⟨_, hreq⟩ := h.2 x hmem hxb
    obtain ⟨_, hpred⟩ := List.mem_filter.mp hx
    have hb : (x.type == NodeType.AI_BRAINSTORM) = false := by
      simp only [requiresInput, Bool.not_eq_true', Bool.or_eq_false_iff] at hreq
      exact hreq.2
    have hst : (x.status != NodeStatus.IDLE) = false := by
      simp [bne, hidle]
    simp only [hst, Bool.false_eq_true, if_false, hb, if_neg] at hpred
    have heinc : e ∈ incomingOf conns x.id :=
      List.mem_filter.mpr ⟨he, by simp [het, hxb]⟩
    have hcount : ((incomingOf conns x.id).length == 0) = false := by
      have : incomingOf conns x.id ≠ [] := List.ne_nil_of_mem heinc
      simpa [List.length_eq_zero] using this
    simp only [hcount, Bool.false_and, Bool.false_eq_true, if_false] at hpred
    have hall := List.all_eq_true.mp hpred e heinc
    cases hfind : findNode ns e.sourceId with
    | none => simp [hfind] at hall
    | some s =>
      obtain ⟨hsns, hsid⟩ := findNode_some hfind
      have hserr : s.status = NodeStatus.ERROR := h.1 s hsns (hsid.trans hes)
      rw [hfind] at hall
      have : s.status = NodeStatus.COMPLETED := beq_iff_eq.mp hall
      rw [hserr] at this
      exact absurd this (by decide)

theorem blockedInv_runRound (gen : GenOracle) (conns : List Connection) (g : String)
    {aId bId : String} {e : Connection} (he : e ∈ conns) (het : e.targetId = bId)
    (hes : e.sourceId = aId) {ns : List NodeData} (h : BlockedInv aId bId ns) :
    BlockedInv aId bId (runRound gen conns g ns) := by
  have hsel := blockedInv_not_selected conns he het hes h
  have htransfer : ∀ n' ∈ runRound gen conns g ns,
      (n'.id = aId ∨ n'.id = bId) → ∃ o ∈ ns, n' = o := by
    intro n' hn' hor
    obtain ⟨o, ho, hr⟩ := forall₂_mem_right (runRound_spec gen conns g ns) n' hn'
    by_cases hmemb : o.id ∈ (nodesToRun conns ns).map (fun x => x.id)
    · obtain ⟨x, hx, hxid⟩ := List.mem_map.mp hmemb
      have hid : n'.id = o.id := (hr.2 hmemb).1.1
      have hxab := hsel x hx
      rcases hor with h1 | h1
      · exact absurd (by rw [hxid, ← hid, h1]) hxab.1
      · exact absurd (by rw [hxid, ← hid, h1]) hxab.2
    · exact ⟨o, ho, hr.1 hmemb⟩
  constructor
  · intro n' hn' hna
    obtain ⟨o, ho, heq⟩ := htransfer n' hn' (Or.inl hna)
    rw [heq] at hna ⊢
    exact h.1 o ho hna
  · intro n' hn' hnb
    obtain ⟨o, ho, heq⟩ := htransfer n' hn' (Or.inr hnb)
    rw [heq] at hnb ⊢
    exact h.2 o ho hnb

/-- C6, counterexample to the claim as stated: if B is a Brainstorm node
whose only incoming edge comes from the Error node A, the readiness filter
(line 688) selects B before ever looking at its edges, so B does not
remain Idle. -/
theorem claim_C6_counterexample :
    (iterRounds (fun _ _ _ _ => Except.ok "t")
      [{ id := "e", sourceId := "a", targetId := "b" }] "" 1
      [{ id := "a", type := NodeType.AI_GENERATOR, status := NodeStatus.ERROR, errorMessage := some "boom" },
       { id := "b", type := NodeType.AI_BRAINSTORM }]).map (fun n => (n.id, n.status)) =
      [("a", NodeStatus.ERROR), ("b", NodeStatus.COMPLETED)] ∧
    NodeStatus.COMPLETED ≠ NodeStatus.IDLE := by
  constructor
  · decide
  · decide

/-- The blocking invariant is preserved by any number of rounds. -/
theorem blockedInv_iterRounds (gen : GenOracle) (conns : List Connection) (g : String)
    {aId bId : String} {e : Connection}
    (he : e ∈ conns) (het : e.targetId = bId) (hes : e.sourceId = aId) :
    ∀ (k : Nat) {ns : List NodeData}, BlockedInv aId bId ns →
      BlockedInv aId bId (iterRounds gen conns g k ns) := by
  intro k
  induction k with
  | zero => intro ns h; exact h
  | succ k ih => intro ns h; exact ih (blockedInv_runRound gen conns g he het hes h)

/-- C6 (amended): if node B is of an input-requiring kind (Generator,
Optimizer, FactCheck, Coder, Preview — not Brainstorm, which ignores its
edges) and has an incoming edge from node A, and A is in Error while B is
Idle, then for the whole rest of the run B stays Idle (and A stays in
Error): at quiescence the permanently blocked node is left Idle, not
Error. -/
theorem claim_C6_amended (gen : GenOracle) (conns : List Connection) (g : String)
    (ns : List NodeData) (aId bId : String) (e : Connection) (k : Nat)
    (he : e ∈ conns) (het : e.targetId = bId) (hes : e.sourceId = aId)
    (h : BlockedInv aId bId ns) :
    BlockedInv aId bId (iterRounds gen conns g k ns) :=
  blockedInv_iterRounds gen conns g he het hes k h

/-- Witness for C6 (amended): the chain A→B with A in Error; after two
rounds B is still Idle. -/
theorem claim_C6_amended_witness :
    (({ id := "e", sourceId := "a", targetId := "b" } : Connection) ∈
        [({ id := "e", sourceId := "a", targetId := "b" } : Connection)] ∧
      BlockedInv "a" "b"
        [{ id := "a", type := NodeType.AI_GENERATOR, status := NodeStatus.ERROR, errorMessage := some "boom" },
         { id := "b", type := NodeType.AI_GENERATOR }]) ∧
    BlockedInv "a" "b"
      (iterRounds (fun _ _ _ _ => Except.ok "t")
        [{ id := "e", sourceId := "a", targetId := "b" }] "" 2
        [{ id := "a", type := NodeType.AI_GENERATOR, status := NodeStatus.ERROR, errorMessage := some "boom" },
         { id := "b", type := NodeType.AI_GENERATOR }]) :=
  ⟨⟨by decide, by unfold BlockedInv; decide⟩,
    claim_C6_amended (fun _ _ _ _ => Except.ok "t")
      [{ id := "e", sourceId := "a", targetId := "b" }] ""
      [{ id := "a", type := NodeType.AI_GENERATOR, status := NodeStatus.ERROR, errorMessage := some "boom" },
       { id := "b", type := NodeType.AI_GENERATOR }]
      "a" "b" { id := "e", sourceId := "a", targetId := "b" } 2
      (by decide) rfl rfl (by unfold BlockedInv; decide)⟩

/-- The claim's readiness condition, written from the spec's words (§4.2)
for comparison with the source's filter: Idle, and either a kind that is
eligible with no inputs (Source-Text, Source-Image, Brainstorm) or at
least one incoming edge with every incoming edge's source node present and
Completed. -/
def claimEligible (conns : List Connection) (ns : List NodeData) (node : NodeData) : Bool :=
  node.status == NodeStatus.IDLE &&
  ((node.type == NodeType.INPUT || node.type == NodeType.IMAGE_NODE
      || node.type == NodeType.AI_BRAINSTORM) ||
   (!(incomingOf conns node.id).isEmpty &&
    (incomingOf conns node.id).all (fun edge =>
      match findNode ns edge.sourceId with
      | some sourceNode => sourceNode.status == NodeStatus.COMPLETED
      | none => false)))

theorem instantIdle_false_of_not_idle {n : NodeData} (h : n.status ≠ NodeStatus.IDLE) :
    instantIdle n = false := by
  simp [instantIdle, h]

theorem no_instant_idle_runRound (gen : GenOracle) (conns : List Connection) (g : String)
    {ns : List NodeData} (h : ∀ n ∈ ns, instantIdle n = false) :
    ∀ n ∈ runRound gen conns g ns, instantIdle n = false := by
  intro n' hn'
  obtain ⟨o, ho, hr⟩ := forall₂_mem_right (runRound_spec gen conns g ns) n' hn'
  by_cases hmemb : o.id ∈ (nodesToRun conns ns).map (fun x => x.id)
  · exact instantIdle_false_of_not_idle (hr.2 hmemb).2.not_idle
  · rw [hr.1 hmemb]
    exact h o ho

theorem no_instant_idle_iter (gen : GenOracle) (conns : List Connection) (g : String) :
    ∀ (k : Nat) {ns : List NodeData}, (∀ n ∈ ns, instantIdle n = false) →
      ∀ n ∈ iterRounds gen conns g k ns, instantIdle n = false := by
  intro k
  induction k with
  | zero => intro ns h; exact h
  | succ k ih => intro ns h; exact ih (no_instant_idle_runRound gen conns g h)

/-- In a state with no IDLE source-like node (as in every round state of
the scheduler), the source's readiness filter agrees exactly with the
claim's readiness condition. -/
theorem eligible_iff (conns : List Connection) {ns : List NodeData}
    (hni : ∀ n ∈ ns, instantIdle n = false) (node : NodeData) (hnode : node ∈ ns) :
    (node ∈ nodesToRun conns ns ↔ claimEligible conns ns node = true) := by
  have hmemiff : node ∈ nodesToRun conns ns ↔
      (if (node.status != NodeStatus.IDLE) = true then false
       else if (node.type == NodeType.AI_BRAINSTORM) = true then true
       else if ((incomingOf conns node.id).length == 0 && node.type != NodeType.INPUT
           && node.type != NodeType.IMAGE_NODE) = true then false
       else (incomingOf conns node.id).all (fun edge =>
         match findNode ns edge.sourceId with
         | some sourceNode => sourceNode.status == NodeStatus.COMPLETED
         | none => false)) = true := by
    simp only [nodesToRun, List.mem_filter, and_iff_right hnode]
  rw [hmemiff]
  by_cases hst : node.status = NodeStatus.IDLE
  · have h1 : (node.status != NodeStatus.IDLE) = false := by simp [bne, hst]
    by_cases hbr : node.type = NodeType.AI_BRAINSTORM
    · simp [claimEligible, h1, hbr, hst]
    · have h2 : (node.type == NodeType.AI_BRAINSTORM) = false := by simp [hbr]
      have hno : (node.type == NodeType.INPUT || node.type == NodeType.IMAGE_NODE) = false := by
        have hfalse := hni node hnode
        simp only [instantIdle, Bool.and_eq_true] at hfalse
        simpa [hst] using hfalse
      have hnoI : (node.type == NodeType.INPUT) = false := by
        simpa using (Bool.or_eq_false_iff.mp hno).1
      have hnoM : (node.type == NodeType.IMAGE_NODE) = false := by
        simpa using (Bool.or_eq_false_iff.mp hno).2
      cases hinc : incomingOf conns node.id with
      | nil => simp [claimEligible, h1, h2, hst, hinc, hnoI, hnoM, bne]
      | cons e rest => simp [claimEligible, h1, h2, hst, hinc, hnoI, hnoM, bne]
  · have h1 : (node.status != NodeStatus.IDLE) = true := by simp [bne, hst]
    simp [claimEligible, h1, hst]

/-- A node of an input-requiring kind with zero incoming edges never
passes the readiness filter, in any state. -/
theorem zero_input_not_selected (conns : List Connection) (ns : List NodeData)
    (node : NodeData) (hreq : requiresInput node.type = true)
    (hinc : incomingOf conns node.id = []) : node ∉ nodesToRun conns ns := by
  intro hsel
  have hpred := (List.mem_filter.mp (by simpa only [nodesToRun] using hsel)).2
  simp only [requiresInput, Bool.not_eq_true', Bool.or_eq_false_iff, beq_eq_false_iff_ne] at hreq
  obtain ⟨⟨hni, hnm⟩, hnb⟩ := hreq
  by_cases hst : node.status = NodeStatus.IDLE
  · have h1 : (node.status != NodeStatus.IDLE) = false := by simp [bne, hst]
    have h2 : (node.type == NodeType.AI_BRAINSTORM) = false := by simp [hnb]
    simp [h1, h2, hinc, bne, hni, hnm] at hpred
  · have h1 : (node.status != NodeStatus.IDLE) = true := by simp [bne, hst]
    simp [h1] at hpred

/-- C4: in every round state of the scheduler (after Step 1 and any number
of rounds), a node is selected by the readiness evaluation iff it is Idle
and either of a no-input kind (Source-Text, Source-Image, Brainstorm) or
has at least one incoming edge with all incoming sources Completed; and a
node of an input-requiring kind with zero incoming edges is never
selected. -/
theorem claim_C4 (gen : GenOracle) (conns : List Connection) (g : String)
    (ns0 : List NodeData) (k : Nat) :
    ∀ node ∈ iterRounds gen conns g k (step1 ns0),
      (node ∈ nodesToRun conns (iterRounds gen conns g k (step1 ns0)) ↔
        claimEligible conns (iterRounds gen conns g k (step1 ns0)) node = true) ∧
      (requiresInput node.type = true → incomingOf conns node.id = [] →
        node ∉ nodesToRun conns (iterRounds gen conns g k (step1 ns0))) := by
  intro node hnode
  have hni : ∀ n ∈ iterRounds gen conns g k (step1 ns0), instantIdle n = false :=
    no_instant_idle_iter gen conns g k (step1_no_instant_idle ns0)
  exact ⟨eligible_iff conns hni node hnode,
    fun hreq hinc => zero_input_not_selected conns _ node hreq hinc⟩

/-- Witness for C4 on the concrete chain a→b after Step 1: the Generator b
is selected, and the claim-side condition agrees. -/
theorem claim_C4_witness :
    (({ id := "b", type := NodeType.AI_GENERATOR } : NodeData) ∈
      iterRounds (fun _ _ _ _ => Except.ok "t") [{ id := "e", sourceId := "a", targetId := "b" }] "" 0
        (step1 [{ id := "a", type := NodeType.INPUT, userPrompt := some "hi" },
                { id := "b", type := NodeType.AI_GENERATOR }])) ∧
    (({ id := "b", type := NodeType.AI_GENERATOR } : NodeData) ∈
        nodesToRun [{ id := "e", sourceId := "a", targetId := "b" }]
          (iterRounds (fun _ _ _ _ => Except.ok "t") [{ id := "e", sourceId := "a", targetId := "b" }] "" 0
            (step1 [{ id := "a", type := NodeType.INPUT, userPrompt := some "hi" },
                    { id := "b", type := NodeType.AI_GENERATOR }])) ↔
      claimEligible [{ id := "e", sourceId := "a", targetId := "b" }]
        (iterRounds (fun _ _ _ _ => Except.ok "t") [{ id := "e", sourceId := "a", targetId := "b" }] "" 0
          (step1 [{ id := "a", type := NodeType.INPUT, userPrompt := some "hi" },
                  { id := "b", type := NodeType.AI_GENERATOR }]))
        { id := "b", type := NodeType.AI_GENERATOR } = true) :=
  ⟨by decide,
    (claim_C4 (fun _ _ _ _ => Except.ok "t") [{ id := "e", sourceId := "a", targetId := "b" }] ""
      [{ id := "a", type := NodeType.INPUT, userPrompt := some "hi" },
       { id := "b", type := NodeType.AI_GENERATOR }] 0
      { id := "b", type := NodeType.AI_GENERATOR } (by decide)).1⟩

/-- The text inputs of a node, read off the incoming edges in insertion
order: the `content` of every found non-image source (claim-side
definition for C8, written from the spec's words). -/
def edgeTexts (ns : List NodeData) (edges : List Connection) : List String :=
  edges.filterMap (fun e =>
    match findNode ns e.sourceId with
    | some s => if s.type == NodeType.IMAGE_NODE then none else some s.content
    | none => none)

/-- The image inputs of a node: the `imageUrls` of every found image
source, concatenated in incoming-edge order (claim-side definition). -/
def edgeImages (ns : List NodeData) : List Connection → List String
  | [] => []
  | e :: rest =>
    (match findNode ns e.sourceId with
     | some s => if s.type == NodeType.IMAGE_NODE then s.imageUrls.getD [] else []
     | none => []) ++ edgeImages ns rest

/-- The claim's payload shape: non-image upstream contents in edge order
joined with a blank line, image locators appended only as a trailing
available-images annotation. -/
def specPayload (conns : List Connection) (ns : List NodeData) (node : NodeData) : String :=
  String.intercalate "\n\n" (edgeTexts ns (incomingOf conns node.id)) ++
  (if (edgeImages ns (incomingOf conns node.id)).isEmpty then ""
   else "\n\nAvailable Image URLs: " ++
     String.intercalate ", " (edgeImages ns (incomingOf conns node.id)))

theorem collectInputs_eq (ns : List NodeData) :
    ∀ edges : List Connection, collectInputs ns edges = (edgeTexts ns edges, edgeImages ns edges) := by
  intro edges
  induction edges with
  | nil => rfl
  | cons e rest ih =>
    simp only [collectInputs, edgeTexts, edgeImages, List.filterMap_cons, ih]
    cases hfind : findNode ns e.sourceId with
    | none => simp [edgeTexts, hfind]
    | some s =>
      by_cases him : (s.type == NodeType.IMAGE_NODE) = true
      · simp [edgeTexts, hfind, him]
      · simp only [Bool.not_eq_true] at him
        simp [edgeTexts, hfind, him]

/-- C8: for a Generator/Optimizer/FactCheck node the payload sent to the
generation capability is the concatenation of the contents of its
non-image upstream nodes in the insertion order of its incoming edges,
joined with a blank line, with upstream image locators appended only as a
trailing available-images annotation (first conjunct); in particular for
two incoming edges E1 from P then E2 from Q (both text sources, no
images), the payload is P's content, a blank line, then Q's content
(second conjunct). -/
theorem claim_C8 (conns : List Connection) (ns : List NodeData) (node : NodeData)
    (htype : node.type = NodeType.AI_GENERATOR ∨ node.type = NodeType.AI_OPTIMIZER ∨
      node.type = NodeType.AI_FACT_CHECK) :
    assembledPrompt conns ns node = specPayload conns ns node ∧
    (∀ (e1 e2 : Connection) (p q : NodeData), conns = [e1, e2] →
      e1.targetId = node.id → e2.targetId = node.id →
      findNode ns e1.sourceId = some p → findNode ns e2.sourceId = some q →
      (p.type == NodeType.IMAGE_NODE) = false → (q.type == NodeType.IMAGE_NODE) = false →
      assembledPrompt conns ns node = p.content ++ "\n\n" ++ q.content) := by
  have hbr : (node.type == NodeType.AI_BRAINSTORM) = false := by
    rcases htype with h | h | h <;> simp [h]
  have hcd : (node.type == NodeType.AI_CODER) = false := by
    rcases htype with h | h | h <;> simp [h]
  have hmain : assembledPrompt conns ns node = specPayload conns ns node := by
    unfold assembledPrompt specPayload buildPrompt
    rw [collectInputs_eq]
    simp only [hbr, Bool.false_eq_true, if_false, hcd, Bool.false_and]
    cases himg : edgeImages ns (incomingOf conns node.id) with
    | nil => simp
    | cons i rest => simp [String.append_assoc]
  refine ⟨hmain, ?_⟩
  intro e1 e2 p q hconns het1 het2 hfp hfq hip hiq
  subst hconns
  have hinc : incomingOf [e1, e2] node.id = [e1, e2] := by
    simp [incomingOf, List.filter, het1, het2]
  rw [hmain]
  unfold specPayload
  rw [hinc]
  have hip' : p.type ≠ NodeType.IMAGE_NODE := by simpa using hip
  have hiq' : q.type ≠ NodeType.IMAGE_NODE := by simpa using hiq
  have htexts : edgeTexts ns [e1, e2] = [p.content, q.content] := by
    simp [edgeTexts, List.filterMap_cons, hfp, hfq, hip', hiq']
  have himgs : edgeImages ns [e1, e2] = [] := by
    simp [edgeImages, hfp, hfq, hip', hiq']
  rw [htexts, himgs]
  simp [String.intercalate, String.intercalate.go]

/-- Witness for C8: a Generator fed by two text sources in edge order. -/
theorem claim_C8_witness :
    (({ id := "w", type := NodeType.AI_GENERATOR } : NodeData).type = NodeType.AI_GENERATOR ∨
      ({ id := "w", type := NodeType.AI_GENERATOR } : NodeData).type = NodeType.AI_OPTIMIZER ∨
      ({ id := "w", type := NodeType.AI_GENERATOR } : NodeData).type = NodeType.AI_FACT_CHECK) ∧
    assembledPrompt
      [{ id := "e1", sourceId := "p", targetId := "w" },
       { id := "e2", sourceId := "q", targetId := "w" }]
      [{ id := "p", type := NodeType.INPUT, content := "P", status := NodeStatus.COMPLETED },
       { id := "q", type := NodeType.INPUT, content := "Q", status := NodeStatus.COMPLETED }]
      { id := "w", type := NodeType.AI_GENERATOR } =
    specPayload
      [{ id := "e1", sourceId := "p", targetId := "w" },
       { id := "e2", sourceId := "q", targetId := "w" }]
      [{ id := "p", type := NodeType.INPUT, content := "P", status := NodeStatus.COMPLETED },
       { id := "q", type := NodeType.INPUT, content := "Q", status := NodeStatus.COMPLETED }]
      { id := "w", type := NodeType.AI_GENERATOR } :=
  ⟨Or.inl rfl,
    (claim_C8
      [{ id := "e1", sourceId := "p", targetId := "w" },
       { id := "e2", sourceId := "q", targetId := "w" }]
      [{ id := "p", type := NodeType.INPUT, content := "P", status := NodeStatus.COMPLETED },
       { id := "q", type := NodeType.INPUT, content := "Q", status := NodeStatus.COMPLETED }]
      { id := "w", type := NodeType.AI_GENERATOR } (Or.inl rfl)).1⟩

/-- JavaScript truthiness over optional character lists, for the service
wrapper's template ternaries. -/
def jsTruthyChars (o : Option (List Char)) : Bool :=
  match o with
  | none => false
  | some s => !s.isEmpty

/-- Whitespace test used by JavaScript `String.prototype.trim` (modeled by
`Char.isWhitespace`; the characters this development trims are `'\n'` and
`' '`, on which the two agree). -/
def isWSChar (c : Char) : Bool := c.isWhitespace

/-- JavaScript `.trim()`: drop leading whitespace, then trailing whitespace. -/
def trimChars (l : List Char) : List Char :=
  ((l.dropWhile isWSChar).reverse.dropWhile isWSChar).reverse

/-- The global-context section header of the template literal. -/
def gcHeader : List Char := "### GLOBAL CONTEXT / COMPANY VOICE:\n".data

/-- The role-instruction section header of the template literal. -/
def roleHeader : List Char := "### ROLE INSTRUCTION:\n".data

/-- The generic assistant directive (`systemInstruction || '...'`). -/
def genericRole : List Char := "You are a helpful AI assistant.".data

/-- Template piece: the instruction when truthy, else the generic directive. -/
def effectiveInstruction (systemInstruction : Option (List Char)) : List Char :=
  if jsTruthyChars systemInstruction then systemInstruction.getD [] else genericRole

/-- The `combinedSystemInstruction` of `generateText` (service wrapper
lines 15-19): the template literal starts with a newline, holds the
optional global-context interpolation followed by the literal newline that
terminates its source line, then the role-instruction section, and ends in
a newline plus the two spaces of the closing line's indentation; the whole
string is `.trim()`ed. -/
def combinedSystemInstruction (systemInstruction globalContext : Option (List Char)) : List Char :=
  trimChars ('\n' ::
    ((if jsTruthyChars globalContext then gcHeader ++ globalContext.getD [] ++ ['\n', '\n'] else []) ++
     ('\n' :: (roleHeader ++ (effectiveInstruction systemInstruction ++ ['\n', ' ', ' '])))))

/-- The claim's shape of the combined directive: global-context section
first (only when `globalContext` is present; the section ends with its two
nested newlines plus the template's line-terminator newline, three in
all), then the role-instruction section holding the node's instruction or
the generic directive. -/
def specCombinedDirective (systemInstruction globalContext : Option (List Char)) : List Char :=
  (if jsTruthyChars globalContext then gcHeader ++ globalContext.getD [] ++ ['\n', '\n', '\n'] else []) ++
  roleHeader ++ effectiveInstruction systemInstruction

/-- The list ends in a non-whitespace character (so `.trim()` does not eat
into it). -/
def endsNonWS (l : List Char) : Bool :=
  match l.reverse with
  | [] => false
  | c :: _ => !isWSChar c

theorem isWSChar_nl : isWSChar '\n' = true := by decide

theorem isWSChar_space : isWSChar ' ' = true := by decide

theorem isWSChar_hash : isWSChar '#' = false := by decide

theorem gcHeader_cons : gcHeader = '#' :: "## GLOBAL CONTEXT / COMPANY VOICE:\n".data := by decide

theorem roleHeader_cons : roleHeader = '#' :: "## ROLE INSTRUCTION:\n".data := by decide

theorem dropWhile_fix_of_head (d : Char) (z : List Char) (hd : isWSChar d = false) :
    (d :: z).dropWhile isWSChar = d :: z := by
  simp [List.dropWhile, hd]

theorem dropWhile_nl_step (W : List Char) :
    ('\n' :: W).dropWhile isWSChar = W.dropWhile isWSChar := by
  simp [List.dropWhile, isWSChar_nl]

theorem dropWhile_gcHeader (W : List Char) :
    (gcHeader ++ W).dropWhile isWSChar = gcHeader ++ W := by
  rw [gcHeader_cons, List.cons_append]
  exact dropWhile_fix_of_head '#' _ isWSChar_hash

theorem dropWhile_roleHeader (W : List Char) :
    (roleHeader ++ W).dropWhile isWSChar = roleHeader ++ W := by
  rw [roleHeader_cons, List.cons_append]
  exact dropWhile_fix_of_head '#' _ isWSChar_hash

/-- Trailing trim of the template: with the effective instruction ending
in a non-whitespace character, exactly the final newline and two spaces
are removed. -/
theorem rdrop_template (A I : List Char) (c : Char) (t : List Char)
    (hrev : I.reverse = c :: t) (hc : isWSChar c = false) :
    ((A ++ (I ++ ['\n', ' ', ' '])).reverse.dropWhile isWSChar).reverse = A ++ I := by
  have hI : I = t.reverse ++ [c] := by
    have := congrArg List.reverse hrev
    simpa using this
  rw [List.reverse_append, List.reverse_append, hrev]
  have htail : (['\n', ' ', ' '] : List Char).reverse = [' ', ' ', '\n'] := by decide
  rw [htail]
  simp only [List.cons_append, List.append_assoc, List.nil_append, List.dropWhile,
    isWSChar_space, isWSChar_nl, hc]
  simp [List.reverse_append, List.reverse_reverse, List.append_assoc, hI]

/-- C9: the combined system directive passed to the model equals the
global-context section (present exactly when `globalContext` is truthy)
followed by the role-instruction section carrying the node's instruction
when truthy and the generic assistant directive otherwise — provided the
effective instruction does not end in whitespace (otherwise `.trim()`
shortens its tail; the generic directive ends in '.').  The equality is
between the source-modeled `combinedSystemInstruction` and the
claim-shaped `specCombinedDirective`. -/
theorem claim_C9 (systemInstruction globalContext : Option (List Char))
    (hend : endsNonWS (effectiveInstruction systemInstruction) = true) :
    combinedSystemInstruction systemInstruction globalContext =
      specCombinedDirective systemInstruction globalContext := by
  obtain ⟨c, t, hrev, hc⟩ : ∃ c t, (effectiveInstruction systemInstruction).reverse = c :: t ∧
      isWSChar c = false := by
    unfold endsNonWS at hend
    cases hrevI : (effectiveInstruction systemInstruction).reverse with
    | nil => rw [hrevI] at hend; simp at hend
    | cons c t =>
      rw [hrevI] at hend
      simp only [Bool.not_eq_true'] at hend
      exact ⟨c, t, rfl, hend⟩
  unfold combinedSystemInstruction trimChars specCombinedDirective
  cases htr : jsTruthyChars globalContext with
  | true =>
    simp only [if_pos]
    simp only [List.append_assoc, List.cons_append, List.nil_append]
    rw [dropWhile_nl_step, dropWhile_gcHeader]
    have hmain := rdrop_template
      (gcHeader ++ (globalContext.getD [] ++ ('\n' :: '\n' :: '\n' :: roleHeader)))
      (effectiveInstruction systemInstruction) c t hrev hc
    simp only [List.append_assoc, List.cons_append, List.nil_append] at hmain
    exact hmain
  | false =>
    simp only [Bool.false_eq_true, if_false]
    simp only [List.append_assoc, List.cons_append, List.nil_append]
    rw [dropWhile_nl_step, dropWhile_nl_step, dropWhile_roleHeader]
    have hmain := rdrop_template roleHeader
      (effectiveInstruction systemInstruction) c t hrev hc
    simp only [List.append_assoc] at hmain
    exact hmain

/-- Witness for C9 with a concrete instruction and global context. -/
theorem claim_C9_witness :
    endsNonWS (effectiveInstruction (some "Be formal".data)) = true ∧
    combinedSystemInstruction (some "Be formal".data) (some "ACME corp".data) =
      specCombinedDirective (some "Be formal".data) (some "ACME corp".data) :=
  ⟨by decide, claim_C9 (some "Be formal".data) (some "ACME corp".data) (by decide)⟩

end TextFlow
